import Mathlib

/-!
Verification development for postmarketos-mkinitfs.

This file gives a shallow embedding, in Lean 4, of the dependency-closure
resolution engine and the archive assembly / commit pipeline of
postmarketos-mkinitfs (main.go, pkgs/archive/archive.go, pkgs/misc), and
settles a list of claims about them.

Paths and file contents are byte strings, modelled as Lean `String`
(equivalently its underlying `List Char`; only ASCII data appears in the
program).  Go's `map[string]bool` (`misc.StringSet`) is modelled as an
association list with newest-binding-first lookup, which has exactly the
map's lookup/store semantics (lookup of an absent key yields `false`).
Filesystem state is modelled as finite association lists from path to node.
Functions from Go's standard library that the program calls
(`filepath.Clean`, `filepath.Join`, `filepath.Dir`, `filepath.Base`,
`filepath.Abs`, `strings.Split`, `strings.Fields`, `strings.TrimPrefix`,
`strings.TrimSuffix`, `bufio.Scanner` line splitting) are embedded
faithfully below, at the level of character lists.
-/

namespace Mkinitfs

/-! ## Character-list string utilities (Go `strings` / `path/filepath`) -/

/-- Separator test used by the module-name canonicalizer (`[-_]+`). -/
def isSepCh (c : Char) : Bool := c = '-' || c = '_'

/-- ASCII whitespace, as recognized by `strings.Fields` on the inputs the
program reads (module databases and config files are ASCII). -/
def isSpaceCh (c : Char) : Bool := c = ' ' || c = '\t' || c = '\r' || c = '\n'

/-- Split a character list on a separator character, like `strings.Split`:
`splitCh '/' "a/b" = ["a", "b"]`, `splitCh '/' "" = [""]`. -/
def splitCh (sep : Char) : List Char → List (List Char)
  | [] => [[]]
  | c :: cs =>
    match splitCh sep cs with
    | [] => [[c]]
    | h :: t => if c = sep then [] :: h :: t else (c :: h) :: t

/-- Join character lists with `'/'`, like `strings.Join _ "/"`. -/
def joinC : List (List Char) → List Char
  | [] => []
  | [c] => c
  | c :: cs => c ++ '/' :: joinC cs

theorem splitCh_ne_nil (sep : Char) (p : List Char) : splitCh sep p ≠ [] := by
  cases p with
  | nil => simp [splitCh]
  | cons c cs =>
    simp only [splitCh]
    cases splitCh sep cs with
    | nil => simp
    | cons h t => by_cases hc : c = sep <;> simp [hc]

theorem joinC_splitCh (p : List Char) : joinC (splitCh '/' p) = p := by
  induction p with
  | nil => rfl
  | cons c cs ih =>
    simp only [splitCh]
    cases h : splitCh '/' cs with
    | nil => exact absurd h (splitCh_ne_nil '/' cs)
    | cons hd tl =>
      rw [h] at ih
      by_cases hc : c = '/'
      · subst hc
        simp only [if_pos rfl]
        cases tl with
        | nil => simp [joinC] at ih ⊢; exact ih
        | cons x xs => simp [joinC] at ih ⊢; exact ih
      · simp only [if_neg hc]
        cases tl with
        | nil => simp [joinC] at ih ⊢; exact ih
        | cons x xs => simp [joinC] at ih ⊢; exact ih

theorem splitCh_joinC (cs : List (List Char)) (hne : cs ≠ [])
    (hsl : ∀ c ∈ cs, ('/' : Char) ∉ c) : splitCh '/' (joinC cs) = cs := by
  induction cs with
  | nil => exact absurd rfl hne
  | cons c rest ih =>
    cases rest with
    | nil =>
      simp only [joinC]
      have hc : ('/' : Char) ∉ c := hsl c (by simp)
      clear ih hne hsl
      induction c with
      | nil => rfl
      | cons x xs ihx =>
        simp only [splitCh]
        have hx : x ≠ '/' := by intro h; exact hc (h ▸ List.mem_cons_self x xs)
        have hxs : ('/' : Char) ∉ xs := fun h => hc (List.mem_cons_of_mem x h)
        rw [ihx hxs]
        simp [hx]
    | cons d rest2 =>
      have hc : ('/' : Char) ∉ c := hsl c (by simp)
      have hrest : splitCh '/' (joinC (d :: rest2)) = d :: rest2 :=
        ih (by simp) (fun x hx => hsl x (List.mem_cons_of_mem c hx))
      show splitCh '/' (c ++ '/' :: joinC (d :: rest2)) = c :: d :: rest2
      clear ih hne hsl
      induction c with
      | nil =>
        simp only [List.nil_append, splitCh, hrest]
        simp
      | cons x xs ihx =>
        have hx : x ≠ '/' := by intro h; exact hc (h ▸ List.mem_cons_self x xs)
        have hxs : ('/' : Char) ∉ xs := fun h => hc (List.mem_cons_of_mem x h)
        simp only [List.cons_append, splitCh]
        simp only [List.append_eq]
        rw [ihx hxs]
        simp [hx]

/-- A path component is "normal" when `filepath.Clean` passes it through
unchanged: nonempty, not a dot entry, and free of separators. -/
def normalComp (c : List Char) : Bool :=
  decide (c ≠ [] ∧ c ≠ ['.'] ∧ c ≠ ['.', '.'] ∧ ('/' : Char) ∉ c)

/-- The `..`-handling of one `filepath.Clean` element step: drop into the
parent unless at the top (where a rooted path swallows the `..` and an
unrooted one keeps it). -/
def cleanPushDD (rooted : Bool) : List (List Char) → List (List Char)
  | [] => if rooted then [] else [['.', '.']]
  | t :: rest => if t = ['.', '.'] then ['.', '.'] :: t :: rest else rest

/-- One step of the element-processing loop of Go `filepath.Clean`
(the accumulator holds the output elements in reverse). -/
def cleanPush (rooted : Bool) (acc : List (List Char)) (c : List Char) :
    List (List Char) :=
  if c = [] ∨ c = ['.'] then acc
  else if c = ['.', '.'] then cleanPushDD rooted acc
  else c :: acc

/-- Go `filepath.Clean`, at the level of character lists: lexical processing
of `.` and `..` elements and duplicate separators. -/
def cleanData (p : List Char) : List Char :=
  let rooted := p.head? = some '/'
  let parts := splitCh '/' p
  let stack := (parts.foldl (cleanPush rooted) []).reverse
  if rooted then '/' :: joinC stack
  else if stack.isEmpty then ['.'] else joinC stack

/-- Go `filepath.Clean` on `String`. -/
def filepathClean (s : String) : String := ⟨cleanData s.data⟩

/-- Go `filepath.Join(a, b)`: empty elements are dropped, then the result is
cleaned; the all-empty join is `""`. -/
def goJoin (a b : String) : String :=
  if a = "" && b = "" then ""
  else if a = "" then filepathClean b
  else if b = "" then filepathClean a
  else filepathClean ⟨a.data ++ '/' :: b.data⟩

/-- The directory part of a path, up to and including the final slash
(empty when the path has no slash); helper for `filepath.Dir`. -/
def dirPart : List Char → List Char
  | [] => []
  | c :: cs =>
    if ('/' : Char) ∈ cs then c :: dirPart cs
    else if c = '/' then ['/'] else []

/-- Go `filepath.Dir`: everything up to the final separator, cleaned;
`"."` when there is no separator. -/
def goDir (p : String) : String := filepathClean ⟨dirPart p.data⟩

/-- Go `filepath.Base`: the last element of the path, after dropping
trailing separators. -/
def baseData (p : List Char) : List Char :=
  if p.isEmpty then ['.']
  else
    let q := (p.reverse.dropWhile (· = '/')).reverse
    if q.isEmpty then ['/']
    else (q.reverse.takeWhile (· ≠ '/')).reverse

/-- Go `filepath.IsAbs` (unix): the path begins with a separator. -/
def isAbsB (s : String) : Bool := s.data.head? = some '/'

/-- Go `filepath.Abs` relative to an explicit working directory `wd`
(`filepath.Abs` itself consults the process working directory; the call
sites below pass the directory the process is in at that point). -/
def filepathAbs (wd : String) (p : String) : String :=
  if isAbsB p then filepathClean p
  else if p = "" then filepathClean wd
  else filepathClean ⟨wd.data ++ '/' :: p.data⟩

/-- Go `strings.TrimPrefix(s, "/")`, the only trim-prefix call the program
makes. -/
def trimSlash (s : String) : String :=
  match s.data with
  | '/' :: rest => ⟨rest⟩
  | _ => s

/-- Go `strings.TrimSuffix(s, ":")`, used on the first field of a
`modules.dep` line. -/
def trimColon (s : String) : String :=
  match s.data.reverse with
  | ':' :: rest => ⟨rest.reverse⟩
  | _ => s

/-- `stripExts` from main.go: `strings.Split(file, ".")[0]`, i.e. the part
of the string before the first `'.'`. -/
def stripExts (file : String) : String := ⟨file.data.takeWhile (· ≠ '.')⟩

theorem dropWhile_len_le {α : Type} (p : α → Bool) (l : List α) :
    (l.dropWhile p).length ≤ l.length := by
  induction l with
  | nil => simp [List.dropWhile]
  | cons a l ih =>
    simp only [List.dropWhile]
    split
    · exact Nat.le_succ_of_le ih
    · exact Nat.le_refl _

/-- Character scan behind `strings.Fields`; `cur` is the reversed current
field. -/
def fieldsAux : List Char → List Char → List (List Char)
  | [], cur => if cur.isEmpty then [] else [cur.reverse]
  | c :: cs, cur =>
    if isSpaceCh c then
      if cur.isEmpty then fieldsAux cs [] else cur.reverse :: fieldsAux cs []
    else fieldsAux cs (c :: cur)

/-- Go `strings.Fields`: split on runs of whitespace, dropping empties. -/
def fieldsData (l : List Char) : List (List Char) := fieldsAux l []

/-- `strings.Fields` on `String`. -/
def goFields (s : String) : List String := (fieldsData s.data).map (⟨·⟩)

/-- The lines produced by `bufio.Scanner` with the default line splitter:
split on `'\n'`, with no final empty token when the input ends in a
newline (trailing `'\r'` stripping is irrelevant for the inputs used). -/
def scanLines (s : String) : List String :=
  let ls := splitCh '\n' s.data
  let ls := if ls.getLast? = some [] then ls.dropLast else ls
  ls.map (⟨·⟩)

/-! ## `misc.StringSet` (Go `map[string]bool`) -/

/-- `misc.StringSet`: a Go `map[string]bool`, as an association list with
newest binding first. -/
abbrev StringSet := List (String × Bool)

/-- Map store `m[k] = v`. -/
def setB (m : StringSet) (k : String) (v : Bool) : StringSet := (k, v) :: m

/-- Map lookup `m[k]`, with the Go zero-value default `false`. -/
def getB (m : StringSet) (k : String) : Bool :=
  match m with
  | [] => false
  | (k', v) :: rest => if k' = k then v else getB rest k

theorem getB_setB_self (m : StringSet) (k : String) (v : Bool) :
    getB (setB m k v) k = v := by simp [setB, getB]

theorem getB_setB_ne (m : StringSet) (k k' : String) (v : Bool) (h : k ≠ k') :
    getB (setB m k v) k' = getB m k' := by simp [setB, getB, h]

/-! ## `misc.RelativeSymlinkTargetToDir` (claim C5)

The Go function reads the process working directory (`os.Getwd`), changes
into `dir` (`os.Chdir`), resolves `symPath` with `filepath.Abs` (which
consults the working directory, at that point `dir`), and changes back.
The model threads the working directory explicitly and records every
`os.Chdir` call in a trace; the success path of every system call is
modelled (the claims under study concern the successful executions). -/

/-- Result of `misc.RelativeSymlinkTargetToDir`: the returned path, the
final process working directory, and the list of `os.Chdir` targets the
call performed, in order. -/
structure SymlinkResolveOut where
  result : String
  finalWd : String
  chdirCalls : List String
deriving DecidableEq, Repr

/-- `misc.RelativeSymlinkTargetToDir(symPath, dir)` run with process
working directory `cwd`. -/
def RelativeSymlinkTargetToDir (symPath dir cwd : String) : SymlinkResolveOut :=
  let oldWd := cwd
  -- os.Chdir(dir)
  let cwd := dir
  -- path, err = filepath.Abs(symPath), with the working directory now dir
  let path := filepathAbs cwd symPath
  -- os.Chdir(oldWd)
  let cwd := oldWd
  { result := path, finalWd := cwd, chdirCalls := [dir, oldWd] }

/-! ## `archive.checksum` (claim C10)

`checksum` opens the file and loops `fd.Read(buf)`, feeding any bytes read
into the hash, and leaves the loop only when the read error is exactly
`io.EOF`; any other read error is never examined.  The reader is modelled
as a script assigning to each read call its outcome: the bytes delivered
and the error returned alongside them.  The hash state is modelled as the
accumulated byte sequence (the SHA-256/hex encoding of the final state is
injective and plays no role in the claims).  The unbounded `for` loop is
modelled with fuel: `none` means the loop has not finished within the
given number of iterations. -/

/-- Error value returned by one `fd.Read` call: `io.EOF` or some other
error (`none` = no error). -/
inductive ReadErr where
  | eof
  | other
deriving DecidableEq, Repr

/-- Outcome of one `fd.Read(buf)` call: bytes delivered, whether the
`sha256.Write` of those bytes succeeds (it always does for SHA-256, but
the code checks it), and the read error. -/
structure ReadStep where
  bytes : List Nat
  writeOk : Bool := true
  err : Option ReadErr := none

/-- The read loop of `archive.checksum`.  `script i` is the outcome of the
`i`-th read; `acc` is the hash state (bytes hashed so far). -/
def checksumLoop (script : Nat → ReadStep) (acc : List Nat) (i fuel : Nat) :
    Option (Except String (List Nat)) :=
  match fuel with
  | 0 => none
  | fuel + 1 =>
    let step := script i
    -- if bytes > 0 { if _, err := sha256.Write(buf[:bytes]); err != nil { return } }
    if step.bytes.length > 0 && !step.writeOk then
      some (.error "Unable to checksum")
    else
      let acc := if step.bytes.length > 0 then acc ++ step.bytes else acc
      -- if err == io.EOF { break }
      if step.err = some ReadErr.eof then some (.ok acc)
      else checksumLoop script acc (i + 1) fuel

/-- `archive.checksum`: open the file (`openOk` = whether `os.Open`
succeeds), then run the read loop.  On success the digest is the byte
sequence fed to the hash. -/
def goChecksum (openOk : Bool) (script : Nat → ReadStep) (fuel : Nat) :
    Option (Except String (List Nat)) :=
  if !openOk then some (.error "Unable to checksum")
  else checksumLoop script [] 0 fuel

/-! ## Claim C5: symlink target resolution -/

/-- Claim C5 (counterexample).  The claim states that resolving a relative
symlink target is side-effect-free and does not read or modify
process-global working-directory state.  On a concrete input,
`misc.RelativeSymlinkTargetToDir` performs two `os.Chdir` calls (into the
link's directory and back), so its chdir trace is not empty: the
side-effect-freedom part of the claim is false. -/
theorem C5_counterexample :
    (RelativeSymlinkTargetToDir "../../lib/libfoo.so" "/usr/local/bin" "/home/user").chdirCalls
      = ["/usr/local/bin", "/home/user"] ∧
    (RelativeSymlinkTargetToDir "../../lib/libfoo.so" "/usr/local/bin" "/home/user").chdirCalls
      ≠ [] := by
  exact ⟨rfl, by decide⟩

/-- Claim C5 (amended): resolving a symbolic link's relative target is
computed against the link's own directory `dir` — the returned value is
`filepath.Abs` of the target taken with `dir` as the working directory, and
is independent of the process working directory in effect at the call — but
the implementation is not side-effect-free: it reads the working directory
and temporarily changes it (chdir into `dir` and back), restoring the
original working directory on the successful path. -/
theorem C5_resolution_against_link_dir (symPath dir cwd cwdOther : String) :
    (RelativeSymlinkTargetToDir symPath dir cwd).result = filepathAbs dir symPath ∧
    (RelativeSymlinkTargetToDir symPath dir cwd).result
      = (RelativeSymlinkTargetToDir symPath dir cwdOther).result ∧
    (RelativeSymlinkTargetToDir symPath dir cwd).finalWd = cwd ∧
    (RelativeSymlinkTargetToDir symPath dir cwd).chdirCalls = [dir, cwd] :=
  ⟨rfl, rfl, rfl, rfl⟩

/-! ## Claim C10: the checksum read loop -/

/-- Claim C10.  The read loop of `archive.checksum` exits only on `io.EOF`:
(1) when every hash write succeeds (as it always does for SHA-256), the
loop never returns an error, whatever read errors occur — a non-EOF read
error is never propagated; (2) a mid-file read failure followed by EOF
yields the checksum of the bytes read so far, with no error; (3) a reader
that persistently returns a non-EOF error is re-read forever (the loop
never finishes, for any amount of fuel). -/
theorem C10_checksum_loop_exits_only_on_eof :
    (∀ (script : Nat → ReadStep), (∀ j, (script j).writeOk = true) →
      ∀ acc i fuel e, checksumLoop script acc i fuel ≠ some (.error e)) ∧
    (∀ (script : Nat → ReadStep) acc i,
      (script i).err = some ReadErr.other → (script i).writeOk = true →
      (script (i + 1)).bytes = [] → (script (i + 1)).err = some ReadErr.eof →
      ∀ fuel, checksumLoop script acc i (fuel + 2)
        = some (.ok (acc ++ (script i).bytes))) ∧
    (∀ (script : Nat → ReadStep),
      (∀ j, (script j).err ≠ some ReadErr.eof) →
      (∀ j, (script j).writeOk = true) →
      ∀ acc i fuel, checksumLoop script acc i fuel = none) := by
  refine ⟨?_, ?_, ?_⟩
  · intro script hw acc i fuel
    induction fuel generalizing acc i with
    | zero => intro e; simp [checksumLoop]
    | succ fuel ih =>
      intro e
      simp only [checksumLoop, hw i, Bool.not_true, Bool.and_false,
        Bool.false_eq_true, if_false]
      split
      · simp
      · exact ih _ _ e
  · intro script acc i hother hwok hb2 he2 fuel
    have h1 : checksumLoop script acc i (fuel + 2)
        = checksumLoop script
            (if (script i).bytes.length > 0 then acc ++ (script i).bytes else acc)
            (i + 1) (fuel + 1) := by
      simp only [checksumLoop, hwok, Bool.not_true, Bool.and_false,
        Bool.false_eq_true, if_false, hother]
      simp
    rw [h1]
    simp only [checksumLoop, hwok, hb2, he2, Bool.not_true, Bool.and_false,
      Bool.false_eq_true, if_false, List.length_nil]
    simp only [gt_iff_lt, Nat.lt_irrefl, if_false, if_pos rfl]
    by_cases hby : (script i).bytes.length > 0
    · simp [hby]
    · have : (script i).bytes = [] := by
        cases h : (script i).bytes with
        | nil => rfl
        | cons a l => rw [h] at hby; simp at hby
      simp [hby, this]
  · intro script hne hw acc i fuel
    induction fuel generalizing acc i with
    | zero => simp [checksumLoop]
    | succ fuel ih =>
      simp only [checksumLoop, hw i, Bool.not_true, Bool.and_false,
        Bool.false_eq_true, if_false, hne i]
      exact ih _ _

/-- Reader script for the C10 witness: one successful read that also
reports a non-EOF error, then EOF. -/
def c10ScriptMidError : Nat → ReadStep :=
  fun j => if j = 0 then { bytes := [1, 2, 3], err := some ReadErr.other }
           else { bytes := [], err := some ReadErr.eof }

/-- Reader script for the C10 witness: every read fails with a non-EOF
error. -/
def c10ScriptPersistent : Nat → ReadStep :=
  fun _ => { bytes := [7], err := some ReadErr.other }

/-- Reader script for the C10 witness: an immediate clean EOF. -/
def c10ScriptEof : Nat → ReadStep :=
  fun _ => { bytes := [], err := some ReadErr.eof }

/-- Claim C10 (witness): the three parts of
`C10_checksum_loop_exits_only_on_eof` evaluated at concrete reader
scripts. -/
theorem C10_witness :
    checksumLoop c10ScriptEof [] 0 3 ≠ some (.error "boom") ∧
    checksumLoop c10ScriptMidError [] 0 2 = some (.ok [1, 2, 3]) ∧
    checksumLoop c10ScriptPersistent [] 0 5 = none := by
  refine ⟨?_, ?_, ?_⟩
  · exact C10_checksum_loop_exits_only_on_eof.1 c10ScriptEof (fun j => rfl) [] 0 3 "boom"
  · exact C10_checksum_loop_exits_only_on_eof.2.1 c10ScriptMidError [] 0 rfl rfl rfl rfl 0
  · exact C10_checksum_loop_exits_only_on_eof.2.2 c10ScriptPersistent
      (fun j => by simp [c10ScriptPersistent]) (fun j => rfl) [] 0 5

/-! ## Module closure resolution (`getModuleDeps` / `getModule`, main.go)

`getModuleDeps` builds a regular expression from the queried module name by
replacing every maximal run of `-`/`_` with the class `[-_]+` and anchoring
with `^`/`$`, then scans `modules.dep` line by line and matches that
pattern against `filepath.Base(stripExts(fields[0]))` of each line.  The
constructed pattern is modelled as a token list: a `'.'` in the query is
the regexp any-character metacharacter; the other characters occurring in
module names (letters, digits) are literals.  `tokMatch` is anchored
whole-string matching of such a pattern, with backtracking for `[-_]+`. -/

/-- One token of the compiled module-name pattern. -/
inductive Tok where
  /-- a literal character of the module name -/
  | lit (c : Char)
  /-- `'.'` in the module name: regexp wildcard, matches any character -/
  | anyc
  /-- a `[-_]+` class inserted for a separator run -/
  | seprun
deriving DecidableEq, Repr

/-- Scan behind `canonToks`; `inSep` records whether the previous
character belonged to the separator run currently being replaced. -/
def canonAux : List Char → Bool → List Tok
  | [], _ => []
  | c :: cs, inSep =>
    if isSepCh c then
      if inSep then canonAux cs true else Tok.seprun :: canonAux cs true
    else (if c = '.' then Tok.anyc else Tok.lit c) :: canonAux cs false

/-- Compile a module name into a pattern:
`splitRe.ReplaceAllString(modName, "[-_]+")` with `splitRe = [-_]+`. -/
def canonToks (l : List Char) : List Tok := canonAux l false

/-- Backtracking matcher behind `tokMatch`.  Every recursive call strictly
shrinks `ts.length + ds.length`, so the explicit fuel never runs out when
it starts above that bound; it exists only to make the recursion
structural. -/
def tokMatchF : Nat → List Tok → List Char → Bool
  | 0, _, _ => false
  | _ + 1, [], [] => true
  | _ + 1, [], _ :: _ => false
  | _ + 1, _ :: _, [] => false
  | f + 1, Tok.lit c :: ts, d :: ds => c = d && tokMatchF f ts ds
  | f + 1, Tok.anyc :: ts, _ :: ds => tokMatchF f ts ds
  | f + 1, Tok.seprun :: ts, d :: ds =>
    isSepCh d && (tokMatchF f (Tok.seprun :: ts) ds || tokMatchF f ts ds)

/-- Anchored match of a compiled pattern (`^pattern$`) against a string. -/
def tokMatch (ts : List Tok) (cs : List Char) : Bool :=
  tokMatchF (ts.length + cs.length + 1) ts cs

/-- The line scan of `getModuleDeps`: the first line whose canonicalized
key matches wins; its fields (with the trailing `':'` of the first field
trimmed) are returned in order, the module's own path first.  No match
yields the empty list (`deps` stays `nil`). -/
def gmdLoop (pat : List Tok) : List String → List String
  | [] => []
  | line :: rest =>
    match goFields line with
    | [] => gmdLoop pat rest
    | f0 :: frest =>
      let f0 := trimColon f0
      if tokMatch pat (baseData (stripExts f0).data) then f0 :: frest
      else gmdLoop pat rest

/-- `getModuleDeps` from main.go.  The scanner error branch cannot fire on
in-memory input, so the Go `([]string, error)` result is modelled by the
string list alone. -/
def getModuleDeps (modName : String) (modulesDep : String) : List String :=
  gmdLoop (canonToks modName.data) (scanLines modulesDep)

/-- A filesystem fragment mapping paths to file contents; `exists(p)` is
membership. -/
abbrev FileMap := List (String × String)

/-- Association lookup in a `FileMap`. -/
def fsLookup (fs : FileMap) (p : String) : Option String :=
  match fs with
  | [] => none
  | (k, v) :: rest => if k = p then some v else fsLookup rest p

/-- `exists` from main.go (an `os.Stat` probe). -/
def goExists (fs : FileMap) (p : String) : Bool := (fsLookup fs p).isSome

/-- Result of `getModule`.  `fatal` is the `log.Fatal` taken when
`modules.dep` is missing (process abort); every other path of the Go
function returns a `nil` error — including the missing-dependency branch,
whose `return err` returns the `nil` error left over from the successful
`getModuleDeps` call — so the remaining outcomes all carry the final state
of the path set.  (The `os.Open` failure branch is not modelled: the file
was just probed to exist.) -/
inductive ModResult where
  | fatal
  | ok (files : StringSet)
deriving DecidableEq, Repr

/-- The dependency loop of `getModule`: each listed path is joined to
`modDir`; a missing path logs and executes `return err` — with `err = nil`
— so the loop stops and the call succeeds with the entries added so far. -/
def getModLoop (fs : FileMap) (modDir : String) (files : StringSet) :
    List String → StringSet
  | [] => files
  | dep :: rest =>
    let p := goJoin modDir dep
    if goExists fs p then getModLoop fs modDir (setB files p false) rest
    else files

/-- `getModule` from main.go. -/
def getModule (files : StringSet) (modName modDir : String) (fs : FileMap) :
    ModResult :=
  let modDep := goJoin modDir "modules.dep"
  match fsLookup fs modDep with
  | none => ModResult.fatal
  | some content =>
    ModResult.ok (getModLoop fs modDir files (getModuleDeps modName content))

/-! ## Claim C3: a matched dependency path that does not exist on disk -/

/-- Module directory for the C3 evidence. -/
def c3ModDir : String := "/lib/modules/6.1.0"

/-- Filesystem for the C3 evidence: `modules.dep` exists and its single
line matches the query `foo`, but the module file it lists does not
exist. -/
def c3Fs : FileMap := [("/lib/modules/6.1.0/modules.dep", "kernel/drivers/foo.ko:")]

/-- Claim C3 (code-bug evidence).  The database line for `foo` matches and
lists `kernel/drivers/foo.ko`, which does not exist on disk.  The claim
(and the spec) say resolution must fail fatally; the code instead logs and
executes `return err` where `err` is still `nil`, so `getModule` succeeds,
silently dropping the module: the result is `ok` with the path set
unchanged. -/
theorem C3_missing_dep_file_yields_success :
    getModuleDeps "foo" "kernel/drivers/foo.ko:" = ["kernel/drivers/foo.ko"] ∧
    goExists c3Fs (goJoin c3ModDir "kernel/drivers/foo.ko") = false ∧
    getModule [] "foo" c3ModDir c3Fs = ModResult.ok [] := by
  refine ⟨by decide, by decide, by decide⟩

/-! ## Claim C4: module-name canonicalization -/

/-- The `modules.dep` line used by claim C4 (from the repository's own
test data). -/
def c4Db : String :=
  "kernel/drivers/watchdog/dw_wdt.ko.xz: kernel/drivers/watchdog/watchdog.ko.xz"

/-- Claim C4 (counterexample).  The claim states that the queries `dw-wdt`,
`dw_wdt` and `dw_wdt.ko.xz` all match the database entry keyed
`kernel/drivers/watchdog/dw_wdt.ko.xz`.  Extension stripping and base-name
extraction are applied to the database key only — the query is only
separator-normalized — so the query `dw_wdt.ko.xz` (compiled to
`^dw[-_]+wdt.ko.xz$`) does not match the stripped key `dw_wdt`, and
resolution returns nothing for it, while `dw_wdt` succeeds on the same
database. -/
theorem C4_counterexample :
    getModuleDeps "dw_wdt.ko.xz" c4Db = [] ∧
    getModuleDeps "dw_wdt" c4Db =
      ["kernel/drivers/watchdog/dw_wdt.ko.xz",
       "kernel/drivers/watchdog/watchdog.ko.xz"] := by
  refine ⟨by decide, by decide⟩

/-- Claim C4 (amended): canonicalization strips every `.`-delimited suffix
and takes the file base name of the *database key*, and treats runs of
`-`/`_` in the *query* as equivalent to separator runs in the key, so the
queries `dw-wdt`, `dw_wdt` and `dw__wdt` all match the entry keyed
`kernel/drivers/watchdog/dw_wdt.ko.xz`, and the match returns the module's
own file plus all its listed dependency files; a query that keeps its file
extension (such as `dw_wdt.ko.xz`) is not stripped and does not match. -/
theorem C4_separator_agnostic_matching :
    getModuleDeps "dw-wdt" c4Db =
      ["kernel/drivers/watchdog/dw_wdt.ko.xz",
       "kernel/drivers/watchdog/watchdog.ko.xz"] ∧
    getModuleDeps "dw_wdt" c4Db =
      ["kernel/drivers/watchdog/dw_wdt.ko.xz",
       "kernel/drivers/watchdog/watchdog.ko.xz"] ∧
    getModuleDeps "dw__wdt" c4Db =
      ["kernel/drivers/watchdog/dw_wdt.ko.xz",
       "kernel/drivers/watchdog/watchdog.ko.xz"] := by
  refine ⟨by decide, by decide, by decide⟩

/-! ## Claim C6: an unmatched module name is not an error -/

/-- Claim C6.  When no line of the module database matches the requested
module name, `getModuleDeps` returns the empty list, and `getModule`
succeeds (returns the `nil` error) and inserts nothing into the path
set. -/
theorem C6_no_match_is_not_an_error (files : StringSet) (modName modDir : String)
    (fs : FileMap) (content : String)
    (hdep : fsLookup fs (goJoin modDir "modules.dep") = some content)
    (hnomatch : getModuleDeps modName content = []) :
    getModule files modName modDir fs = ModResult.ok files := by
  simp [getModule, hdep, hnomatch, getModLoop]

/-- Filesystem for the C6 witness: a `modules.dep` with one entry, `foo`,
which the queried name `quux` does not match. -/
def c6Fs : FileMap :=
  [("/lib/modules/6.1.0/modules.dep", "kernel/drivers/foo.ko: kernel/bar.ko")]

/-- Claim C6 (witness): `C6_no_match_is_not_an_error` at a concrete
database with no matching line. -/
theorem C6_witness :
    getModule [("/bin/sh", false)] "quux" "/lib/modules/6.1.0" c6Fs
      = ModResult.ok [("/bin/sh", false)] :=
  C6_no_match_is_not_an_error [("/bin/sh", false)] "quux" "/lib/modules/6.1.0"
    c6Fs "kernel/drivers/foo.ko: kernel/bar.ko" (by decide) (by decide)

/-! ## ELF dependency resolution (`getBinaryDeps`, main.go) — claim C1

`getBinaryDeps` Lstats the file; a symlink is resolved (relative targets
against the link's own directory) and recursed into; otherwise the file is
opened as an ELF (failure is `log.Fatal`), registered in the set, and each
imported library name is searched in `/usr/lib` then `/lib` and recursed
into.  The function never *reads* the path set it is given — it only
writes to it — so nothing bounds the recursion; the recursion itself is
therefore modelled with fuel (`none` = still recursing after that many
nested calls). -/

/-- Filesystem node as seen by `getBinaryDeps`: the `os.Lstat` kind, the
`os.Readlink` result, and the `elf.Open`/`ImportedLibraries` result
(`none` = not a loadable ELF). -/
structure BinNode where
  isSymlink : Bool := false
  linkTarget : String := ""
  elfLibs : Option (List String) := none
deriving DecidableEq, Repr

/-- A filesystem fragment for binary resolution. -/
abbrev BinFS := List (String × BinNode)

/-- `os.Lstat`/`os.Stat` probe for binary resolution. -/
def binLookup (fs : BinFS) (p : String) : Option BinNode :=
  match fs with
  | [] => none
  | (k, v) :: rest => if k = p then some v else binLookup rest p

/-- Outcome of a `getBinaryDeps` call: a `nil` error together with the
mutated path set, a returned error, or a `log.Fatal` process abort. -/
inductive BDRes where
  | ok (files : StringSet)
  | err (msg : String)
  | fatal
deriving DecidableEq, Repr

/-- The ordered library search path of `getBinaryDeps`. -/
def libdirs : List String := ["/usr/lib", "/lib"]

/-- The inner `for _, libdir := range libdirs` search: the first directory
whose joined path stats successfully wins. -/
def findLibIn (fs : BinFS) (lib : String) : List String → Option String
  | [] => none
  | d :: ds =>
    let path := goJoin d lib
    if (binLookup fs path).isSome then some path else findLibIn fs lib ds

/-- The `for _, lib := range libs` loop of `getBinaryDeps`: recurse into
the found dependency, propagate its error, then register the path; an
unlocatable dependency is `log.Fatalf`. -/
def gbdLibLoop (recurse : StringSet → String → Option BDRes) (fs : BinFS) :
    StringSet → List String → Option BDRes
  | files, [] => some (BDRes.ok files)
  | files, lib :: rest =>
    match findLibIn fs lib libdirs with
    | none => some BDRes.fatal
    | some path =>
      match recurse files path with
      | none => none
      | some (BDRes.ok files2) => gbdLibLoop recurse fs (setB files2 path false) rest
      | some r => some r

/-- `getBinaryDeps` from main.go, with fuel bounding the nesting depth of
recursive calls (the Go function has no such bound). -/
def getBinaryDeps (fs : BinFS) : Nat → StringSet → String → Option BDRes
  | 0 => fun _ _ => none
  | fuel + 1 => fun files file =>
    match binLookup fs file with
    | none => some (BDRes.err "getBinaryDeps: failed to stat file")
    | some node =>
      if node.isSymlink then
        -- resolve relative link targets against the link's own directory,
        -- then recurse into the target; the recursion's error (or nil) is
        -- the call's result
        let target := node.linkTarget
        let target := if !isAbsB target then filepathAbs (goDir file) target
                      else target
        getBinaryDeps fs fuel files target
      else
        match node.elfLibs with
        | none => some BDRes.fatal  -- log.Fatal on elf.Open failure
        | some libs =>
          let files := setB files file false
          if libs.isEmpty then some (BDRes.ok files)
          else gbdLibLoop (getBinaryDeps fs fuel) fs files libs

/-- Two ELF shared libraries whose imports form the cycle A→B→A. -/
def c1Fs : BinFS :=
  [("/usr/lib/libA.so", { elfLibs := some ["libB.so"] }),
   ("/usr/lib/libB.so", { elfLibs := some ["libA.so"] })]

/-- Claim C1 (code-bug evidence).  On an import cycle A→B→A,
`getBinaryDeps` never terminates: whatever recursion depth (fuel) it is
allowed and whatever the path set already contains, resolution of either
library is still recursing — the function writes to the path set but never
consults it, so no membership check bounds the recursion, contrary to the
claim that resolution terminates with A and B each appearing once. -/
theorem C1_cyclic_deps_never_terminate : ∀ fuel : Nat,
    (∀ files : StringSet,
      getBinaryDeps c1Fs fuel files "/usr/lib/libA.so" = none) ∧
    (∀ files : StringSet,
      getBinaryDeps c1Fs fuel files "/usr/lib/libB.so" = none) := by
  intro fuel
  induction fuel with
  | zero => exact ⟨fun _ => rfl, fun _ => rfl⟩
  | succ fuel ih =>
    constructor
    · intro files
      have step : getBinaryDeps c1Fs (fuel + 1) files "/usr/lib/libA.so"
          = match getBinaryDeps c1Fs fuel (setB files "/usr/lib/libA.so" false)
              "/usr/lib/libB.so" with
            | none => none
            | some (BDRes.ok files2) =>
              gbdLibLoop (getBinaryDeps c1Fs fuel) c1Fs
                (setB files2 "/usr/lib/libB.so" false) []
            | some r => some r := rfl
      rw [step, ih.2 (setB files "/usr/lib/libA.so" false)]
    · intro files
      have step : getBinaryDeps c1Fs (fuel + 1) files "/usr/lib/libB.so"
          = match getBinaryDeps c1Fs fuel (setB files "/usr/lib/libB.so" false)
              "/usr/lib/libA.so" with
            | none => none
            | some (BDRes.ok files2) =>
              gbdLibLoop (getBinaryDeps c1Fs fuel) c1Fs
                (setB files2 "/usr/lib/libA.so" false) []
            | some r => some r := rfl
      rw [step, ih.1 (setB files "/usr/lib/libB.so" false)]

/-! ## The commit pipeline (`Archive.Write`, pkgs/archive/archive.go)

`Archive.Write` stages the compressed archive in a fresh temporary
directory, checksums it, checks free space, test-extracts it, copies it to
a temp file inside the destination directory, re-checksums, and finally
renames.  The model makes each OS interaction's outcome an explicit
environment field, threads the relevant filesystem state through, and runs
the registered `defer`s (`os.Remove(tmpOutFile)`, registered only after a
successful `writeCompressed`, and `os.RemoveAll(extractDir)`, registered
after the extraction directory is created) on every return path after
their registration point.  No call ever removes the temporary working
directory itself.  The SHA-256/hex-digest computation of `checksum` is
abstracted as a function `hash` on file contents (its read loop is
modelled separately for claim C10); `int64(float64(free) * 0.9)` is
modelled as `free * 9 / 10`, a rounding difference immaterial to the
claims settled here.  The Go `error` result is `Option String`
(`none` = `nil`). -/

/-- Outcomes of the OS interactions of one `Archive.Write` run. -/
structure WriteEnv where
  writeCpioOk : Bool := true
  cpioCloseOk : Bool := true
  /-- `ioutil.TempDir("", ...)` for the staging directory -/
  tmpDirOk : Bool := true
  /-- `os.Create` inside `writeCompressed` -/
  compressCreateOk : Bool := true
  /-- the compression/copy/sync/chmod inside `writeCompressed` -/
  compressOk : Bool := true
  /-- the bytes landing in the staged file -/
  stagedContent : String := ""
  /-- `misc.FreeSpace(targetDir)` (that helper never returns an error) -/
  freeSpace : Nat := 0
  /-- `ioutil.TempDir(tmpOutDir, "extract-test")` -/
  extractDirOk : Bool := true
  /-- `extract(tmpOutFile, extractDir)` -/
  extractOk : Bool := true
  /-- `ioutil.TempFile(targetDir, ...)` -/
  destTmpOk : Bool := true
  /-- `io.Copy` into the destination temp file: the content found there
  afterwards (`none` = copy error); staging-to-copy corruption appears as
  a content differing from `stagedContent` -/
  copyRes : Option String := none
  syncOk : Bool := true
  closeOk : Bool := true
  renameOk : Bool := true
  chmodOk : Bool := true
deriving DecidableEq, Repr

/-- Filesystem state touched by `Archive.Write`: the staging directory and
staged file, the extraction-test subdirectory, the temp file inside the
destination directory, and the file at the final target path. -/
structure WriteSt where
  tmpOutDirExists : Bool := false
  tmpOutFile : Option String := none
  extractDirExists : Bool := false
  destTmp : Option String := none
  destTarget : Option String := none
  destMode : Option Nat := none
deriving DecidableEq, Repr

/-- The deferred `os.Remove(tmpOutFile)`. -/
def rmStaged (st : WriteSt) : WriteSt := { st with tmpOutFile := none }

/-- The deferred `os.RemoveAll(extractDir)`. -/
def rmExtract (st : WriteSt) : WriteSt := { st with extractDirExists := false }

/-- `Archive.Write` from pkgs/archive/archive.go.  `prior` is the file (if
any) at the final target path when the call starts. -/
def archiveWrite (hash : String → String) (mode : Nat) (env : WriteEnv)
    (prior : Option String) : Option String × WriteSt :=
  let st : WriteSt := { destTarget := prior }
  if !env.writeCpioOk then (some "writeCpio failed", st)
  else if !env.cpioCloseOk then (some "cpio close failed", st)
  -- 1. write archive to a temp location
  else if !env.tmpDirOk then (some "Unable to create temporary work dir", st)
  else
    let st := { st with tmpOutDirExists := true }
    if !env.compressCreateOk then (some "writeCompressed: create failed", st)
    else
      let st := { st with tmpOutFile := some env.stagedContent }
      -- a failure inside writeCompressed returns before the
      -- defer os.Remove(tmpOutFile) is registered
      if !env.compressOk then (some "writeCompressed failed", st)
      else
        -- 2. checksum the temp archive
        let tmpFileChecksum := hash env.stagedContent
        -- 3. free-space gate; leave 10% free at target
        let freeSpace := env.freeSpace * 9 / 10
        if env.stagedContent.length ≥ freeSpace then
          (some "Not enough free space in target dir", rmStaged st)
        -- 4. extract the archive to make sure it is valid
        else if !env.extractDirOk then (some "Unable to create extract dir", rmStaged st)
        else
          let st := { st with extractDirExists := true }
          if !env.extractOk then
            (some "Extraction of archive failed", rmExtract (rmStaged st))
          -- 5. copy archive to destination dir
          else if !env.destTmpOk then
            (some "Unable to create temp file in target dir", rmExtract (rmStaged st))
          else
            let st := { st with destTmp := some "" }
            match env.copyRes with
            | none => (some "copy failed", rmExtract (rmStaged st))
            | some copied =>
              let st := { st with destTmp := some copied }
              if !env.syncOk then
                (some "Unable to call fsync on temp file", rmExtract (rmStaged st))
              else if !env.closeOk then
                (some "Unable to save temp file to target dir", rmExtract (rmStaged st))
              else
                -- 6. checksum target, compare to temp file checksum
                let targetFileChecksum := hash copied
                if tmpFileChecksum ≠ targetFileChecksum then
                  (some "checksum mismatch", rmExtract (rmStaged st))
                -- 7. rename archive at destination to final target name
                else if !env.renameOk then
                  (some "Unable to save archive to path", rmExtract (rmStaged st))
                else
                  let st := { st with destTmp := none, destTarget := some copied }
                  if !env.chmodOk then (some "chmod failed", rmExtract (rmStaged st))
                  else (none, rmExtract (rmStaged { st with destMode := some mode }))

/-! ## Claim C2: checksum mismatch during commit -/

/-- Environment for the C2 counterexample: every step succeeds but the
content found in the destination temp file differs from the staged
bytes. -/
def c2Env : WriteEnv :=
  { stagedContent := "archive-bytes", freeSpace := 1000,
    copyRes := some "archive-bytEs" }

/-- Claim C2 (counterexample).  With the staged file checksum differing
from the destination copy's checksum, the commit does fail with the
checksum-mismatch error and does leave the prior target file unchanged —
but the temporary file created in the destination directory is *not*
removed (no code path removes it), contradicting the claim's removal
part. -/
theorem C2_counterexample :
    (archiveWrite (fun s => s) 420 c2Env (some "previous-archive")).1
      = some "checksum mismatch" ∧
    (archiveWrite (fun s => s) 420 c2Env (some "previous-archive")).2.destTmp
      = some "archive-bytEs" ∧
    (archiveWrite (fun s => s) 420 c2Env (some "previous-archive")).2.destTarget
      = some "previous-archive" := by
  refine ⟨by decide, by decide, by decide⟩

/-- Claim C2 (amended): if the checksum of the file copied into the
destination directory differs from the checksum of the staged file, the
commit fails with the checksum-mismatch error and the prior file at the
final target path (if any) is left unchanged; the temporary file created
in the destination directory, however, is left behind with the corrupted
content — nothing removes it. -/
theorem C2_checksum_mismatch_aborts (hash : String → String) (mode : Nat)
    (env : WriteEnv) (prior : Option String) (copied : String)
    (h1 : env.writeCpioOk = true) (h2 : env.cpioCloseOk = true)
    (h3 : env.tmpDirOk = true) (h4 : env.compressCreateOk = true)
    (h5 : env.compressOk = true)
    (h6 : env.stagedContent.length < env.freeSpace * 9 / 10)
    (h7 : env.extractDirOk = true) (h8 : env.extractOk = true)
    (h9 : env.destTmpOk = true) (h10 : env.copyRes = some copied)
    (h11 : env.syncOk = true) (h12 : env.closeOk = true)
    (hmis : hash env.stagedContent ≠ hash copied) :
    (archiveWrite hash mode env prior).1 = some "checksum mismatch" ∧
    (archiveWrite hash mode env prior).2.destTarget = prior ∧
    (archiveWrite hash mode env prior).2.destTmp = some copied := by
  have hnot : ¬ env.stagedContent.length ≥ env.freeSpace * 9 / 10 :=
    Nat.not_le.mpr h6
  simp [archiveWrite, h1, h2, h3, h4, h5, h7, h8, h9, h10, h11, h12, hnot,
    hmis, rmStaged, rmExtract]

/-- Claim C2 (witness): `C2_checksum_mismatch_aborts` at the concrete
mismatch environment. -/
theorem C2_witness :
    (archiveWrite (fun s => s) 420 c2Env (some "old")).1
      = some "checksum mismatch" ∧
    (archiveWrite (fun s => s) 420 c2Env (some "old")).2.destTarget
      = some "old" ∧
    (archiveWrite (fun s => s) 420 c2Env (some "old")).2.destTmp
      = some "archive-bytEs" :=
  C2_checksum_mismatch_aborts (fun s => s) 420 c2Env (some "old")
    "archive-bytEs" rfl rfl rfl rfl rfl (by decide) rfl rfl rfl rfl rfl rfl
    (by decide)

/-! ## Claim C8: temporary-directory cleanup -/

/-- Environment for the C8 counterexample: a fully successful commit. -/
def c8Env : WriteEnv :=
  { stagedContent := "abc", freeSpace := 100, copyRes := some "abc" }

/-- Claim C8 (counterexample).  Even on a fully successful run, the
temporary working directory that held the staged compressed file still
exists when `Archive.Write` returns: only the staged *file* and the
extraction subdirectory are removed; no code path removes the directory
itself, contradicting the claim that it is removed on every execution. -/
theorem C8_counterexample :
    (archiveWrite (fun s => s) 420 c8Env none).1 = none ∧
    (archiveWrite (fun s => s) 420 c8Env none).2.tmpOutDirExists = true := by
  refine ⟨by decide, by decide⟩

theorem c8ExtractRemoved (hash : String → String) (mode : Nat) (env : WriteEnv)
    (prior : Option String) :
    (archiveWrite hash mode env prior).2.extractDirExists = false := by
  unfold archiveWrite
  cases env.writeCpioOk with
  | false => simp
  | true =>
  cases env.cpioCloseOk with
  | false => simp
  | true =>
  cases env.tmpDirOk with
  | false => simp
  | true =>
  cases env.compressCreateOk with
  | false => simp
  | true =>
  cases env.compressOk with
  | false => simp
  | true =>
  by_cases hsp : env.stagedContent.length ≥ env.freeSpace * 9 / 10
  · simp [hsp, rmStaged]
  · cases env.extractDirOk with
    | false => simp [hsp, rmStaged]
    | true =>
    cases env.extractOk with
    | false => simp [hsp, rmStaged, rmExtract]
    | true =>
    cases env.destTmpOk with
    | false => simp [hsp, rmStaged, rmExtract]
    | true =>
    cases env.copyRes with
    | none => simp [hsp, rmStaged, rmExtract]
    | some copied =>
    cases env.syncOk with
    | false => simp [hsp, rmStaged, rmExtract]
    | true =>
    cases env.closeOk with
    | false => simp [hsp, rmStaged, rmExtract]
    | true =>
    by_cases hne : hash env.stagedContent ≠ hash copied
    · simp [hsp, hne, rmStaged, rmExtract]
    · cases env.renameOk with
      | false => simp [hsp, hne, rmStaged, rmExtract]
      | true =>
      cases env.chmodOk with
      | false => simp [hsp, hne, rmStaged, rmExtract]
      | true => simp [hsp, hne, rmStaged, rmExtract]

theorem c8TmpDirRemains (hash : String → String) (mode : Nat) (env : WriteEnv)
    (prior : Option String) (hwc : env.writeCpioOk = true)
    (hcc : env.cpioCloseOk = true) (htd : env.tmpDirOk = true) :
    (archiveWrite hash mode env prior).2.tmpOutDirExists = true := by
  unfold archiveWrite
  rw [hwc, hcc, htd]
  cases env.compressCreateOk with
  | false => simp
  | true =>
  cases env.compressOk with
  | false => simp
  | true =>
  by_cases hsp : env.stagedContent.length ≥ env.freeSpace * 9 / 10
  · simp [hsp, rmStaged]
  · cases env.extractDirOk with
    | false => simp [hsp, rmStaged]
    | true =>
    cases env.extractOk with
    | false => simp [hsp, rmStaged, rmExtract]
    | true =>
    cases env.destTmpOk with
    | false => simp [hsp, rmStaged, rmExtract]
    | true =>
    cases env.copyRes with
    | none => simp [hsp, rmStaged, rmExtract]
    | some copied =>
    cases env.syncOk with
    | false => simp [hsp, rmStaged, rmExtract]
    | true =>
    cases env.closeOk with
    | false => simp [hsp, rmStaged, rmExtract]
    | true =>
    by_cases hne : hash env.stagedContent ≠ hash copied
    · simp [hsp, hne, rmStaged, rmExtract]
    · cases env.renameOk with
      | false => simp [hsp, hne, rmStaged, rmExtract]
      | true =>
      cases env.chmodOk with
      | false => simp [hsp, hne, rmStaged, rmExtract]
      | true => simp [hsp, hne, rmStaged, rmExtract]

theorem c8StagedRemoved (hash : String → String) (mode : Nat) (env : WriteEnv)
    (prior : Option String) (hwc : env.writeCpioOk = true)
    (hcc : env.cpioCloseOk = true) (htd : env.tmpDirOk = true)
    (hco : env.compressCreateOk = true) (hcm : env.compressOk = true) :
    (archiveWrite hash mode env prior).2.tmpOutFile = none := by
  unfold archiveWrite
  rw [hwc, hcc, htd, hco, hcm]
  by_cases hsp : env.stagedContent.length ≥ env.freeSpace * 9 / 10
  · simp [hsp, rmStaged]
  · cases env.extractDirOk with
    | false => simp [hsp, rmStaged]
    | true =>
    cases env.extractOk with
    | false => simp [hsp, rmStaged, rmExtract]
    | true =>
    cases env.destTmpOk with
    | false => simp [hsp, rmStaged, rmExtract]
    | true =>
    cases env.copyRes with
    | none => simp [hsp, rmStaged, rmExtract]
    | some copied =>
    cases env.syncOk with
    | false => simp [hsp, rmStaged, rmExtract]
    | true =>
    cases env.closeOk with
    | false => simp [hsp, rmStaged, rmExtract]
    | true =>
    by_cases hne : hash env.stagedContent ≠ hash copied
    · simp [hsp, hne, rmStaged, rmExtract]
    · cases env.renameOk with
      | false => simp [hsp, hne, rmStaged, rmExtract]
      | true =>
      cases env.chmodOk with
      | false => simp [hsp, hne, rmStaged, rmExtract]
      | true => simp [hsp, hne, rmStaged, rmExtract]

/-- Claim C8 (amended): on every execution of the commit pipeline,
whether it succeeds or fails at any stage, the extraction-test
subdirectory is removed before the operation returns, and the staged
compressed file is removed on every path after it has been successfully
staged; the temporary working directory itself, however, is never removed
— whenever it was created it still exists on return. -/
theorem C8_cleanup (hash : String → String) (mode : Nat) (env : WriteEnv)
    (prior : Option String) :
    ((archiveWrite hash mode env prior).2.extractDirExists = false) ∧
    (env.writeCpioOk = true → env.cpioCloseOk = true → env.tmpDirOk = true →
      (archiveWrite hash mode env prior).2.tmpOutDirExists = true) ∧
    (env.writeCpioOk = true → env.cpioCloseOk = true → env.tmpDirOk = true →
     env.compressCreateOk = true → env.compressOk = true →
      (archiveWrite hash mode env prior).2.tmpOutFile = none) :=
  ⟨c8ExtractRemoved hash mode env prior,
   fun hwc hcc htd => c8TmpDirRemains hash mode env prior hwc hcc htd,
   fun hwc hcc htd hco hcm =>
     c8StagedRemoved hash mode env prior hwc hcc htd hco hcm⟩

/-- Claim C8 (witness): `C8_cleanup` at the concrete successful
environment. -/
theorem C8_witness :
    (archiveWrite (fun s => s) 420 c8Env none).2.extractDirExists = false ∧
    (archiveWrite (fun s => s) 420 c8Env none).2.tmpOutDirExists = true ∧
    (archiveWrite (fun s => s) 420 c8Env none).2.tmpOutFile = none :=
  ⟨(C8_cleanup (fun s => s) 420 c8Env none).1,
   (C8_cleanup (fun s => s) 420 c8Env none).2.1 rfl rfl rfl,
   (C8_cleanup (fun s => s) 420 c8Env none).2.2 rfl rfl rfl rfl rfl⟩

/-! ## Lemmas about the path helpers

These support the archive entry-stream invariant (claims C7 and C9): the
behavior of `filepath.Clean`/`Join`/`Dir` on clean absolute paths, i.e.
paths of the form `'/' ++ c1/…/cn` with every component normal. -/

theorem normalComp_spec (c : List Char) (h : normalComp c = true) :
    c ≠ [] ∧ c ≠ ['.'] ∧ c ≠ ['.', '.'] ∧ ('/' : Char) ∉ c := by
  simpa [normalComp] using h

theorem normalComp_of (c : List Char) (h1 : c ≠ []) (h2 : c ≠ ['.'])
    (h3 : c ≠ ['.', '.']) (h4 : ('/' : Char) ∉ c) : normalComp c = true := by
  simp [normalComp, h1, h2, h3, h4]

theorem str_data_inj (a b : String) (h : a.data = b.data) : a = b :=
  congrArg (fun d => (⟨d⟩ : String)) h

theorem str_mk_data (s : String) : (⟨s.data⟩ : String) = s := by
  cases s; rfl

theorem splitCh_no_slash (p : List Char) :
    ∀ c ∈ splitCh '/' p, ('/' : Char) ∉ c := by
  induction p with
  | nil =>
    intro c hc
    simp only [splitCh, List.mem_singleton] at hc
    subst hc; simp
  | cons x xs ih =>
    intro c hc
    cases h : splitCh '/' xs with
    | nil => exact absurd h (splitCh_ne_nil '/' xs)
    | cons hd tl =>
      have hstep : splitCh '/' (x :: xs)
          = if x = '/' then [] :: hd :: tl else (x :: hd) :: tl := by
        simp only [splitCh]
        rw [h]
      rw [hstep] at hc
      by_cases hx : x = '/'
      · rw [if_pos hx] at hc
        rcases List.mem_cons.mp hc with rfl | hc2
        · simp
        · exact ih c (by rw [h]; exact hc2)
      · rw [if_neg hx] at hc
        rcases List.mem_cons.mp hc with rfl | hc2
        · intro hmem
          rcases List.mem_cons.mp hmem with h1 | h2
          · exact hx h1.symm
          · exact ih hd (by rw [h]; exact List.mem_cons_self hd tl) h2
        · exact ih c (by rw [h]; exact List.mem_cons_of_mem hd hc2)

theorem joinC_head (c : List Char) (rest : List (List Char)) (h : c ≠ []) :
    (joinC (c :: rest)).head? = c.head? := by
  cases rest with
  | nil => rfl
  | cons d ds =>
    show (c ++ '/' :: joinC (d :: ds)).head? = c.head?
    cases c with
    | nil => exact absurd rfl h
    | cons a as => rfl

theorem joinC_concat (cs : List (List Char)) (c : List Char) (h : cs ≠ []) :
    joinC (cs ++ [c]) = joinC cs ++ '/' :: c := by
  induction cs with
  | nil => exact absurd rfl h
  | cons d ds ih =>
    cases ds with
    | nil => rfl
    | cons e es =>
      have h2 : joinC ((e :: es) ++ [c]) = joinC (e :: es) ++ '/' :: c :=
        ih (by simp)
      show d ++ '/' :: joinC ((e :: es) ++ [c])
          = (d ++ '/' :: joinC (e :: es)) ++ '/' :: c
      rw [h2]
      simp

theorem splitCh_cons_sep (l : List Char) :
    splitCh '/' ('/' :: l) = [] :: splitCh '/' l := by
  simp only [splitCh]
  cases h : splitCh '/' l with
  | nil => exact absurd h (splitCh_ne_nil '/' l)
  | cons hd tl => simp

/-- Boolean membership on string lists. -/
def memB : List String → String → Bool
  | [], _ => false
  | a :: l, x => if a = x then true else memB l x

theorem memB_iff (l : List String) (x : String) : memB l x = true ↔ x ∈ l := by
  induction l with
  | nil => simp [memB]
  | cons a l ih =>
    by_cases h : a = x
    · simp [memB, h]
    · simp only [memB, if_neg h, ih, List.mem_cons]
      constructor
      · exact fun hm => Or.inr hm
      · rintro (rfl | hm)
        · exact absurd rfl h
        · exact hm

theorem memB_append (l1 l2 : List String) (x : String) :
    memB (l1 ++ l2) x = (memB l1 x || memB l2 x) := by
  induction l1 with
  | nil => simp [memB]
  | cons a l ih => by_cases h : a = x <;> simp [memB, h, ih]

theorem getB_eq_false (m : StringSet) (s : String)
    (h : ∀ p ∈ m, p.1 ≠ s) : getB m s = false := by
  induction m with
  | nil => rfl
  | cons p m ih =>
    simp only [getB]
    rw [if_neg (h p (List.mem_cons_self p m))]
    exact ih (fun q hq => h q (List.mem_cons_of_mem p hq))

theorem cleanPush_skip (r : Bool) (acc : List (List Char)) (c : List Char)
    (h : c = [] ∨ c = ['.']) : cleanPush r acc c = acc := by
  unfold cleanPush
  rw [if_pos h]

theorem cleanPush_push (r : Bool) (acc : List (List Char)) (c : List Char)
    (h : normalComp c = true) : cleanPush r acc c = c :: acc := by
  obtain ⟨h1, h2, h3, _⟩ := normalComp_spec c h
  unfold cleanPush
  rw [if_neg (by simp [h1, h2]), if_neg h3]

theorem cleanPush_all_normal (acc : List (List Char)) (c : List Char)
    (hacc : ∀ x ∈ acc, normalComp x = true) (hc : ('/' : Char) ∉ c) :
    ∀ x ∈ cleanPush true acc c, normalComp x = true := by
  intro x hx
  unfold cleanPush at hx
  by_cases h1 : c = [] ∨ c = ['.']
  · rw [if_pos h1] at hx
    exact hacc x hx
  · rw [if_neg h1] at hx
    by_cases h2 : c = ['.', '.']
    · rw [if_pos h2] at hx
      cases acc with
      | nil => simp [cleanPushDD] at hx
      | cons t rest =>
        have ht : normalComp t = true := hacc t (List.mem_cons_self t rest)
        have htne : t ≠ ['.', '.'] := (normalComp_spec t ht).2.2.1
        rw [cleanPushDD, if_neg htne] at hx
        exact hacc x (List.mem_cons_of_mem t hx)
    · rw [if_neg h2] at hx
      rcases List.mem_cons.mp hx with rfl | hx2
      · exact normalComp_of x (by tauto) (by tauto) h2 hc
      · exact hacc x hx2

theorem foldl_cleanPush_normal (parts : List (List Char))
    (acc : List (List Char)) (hp : ∀ c ∈ parts, ('/' : Char) ∉ c)
    (hacc : ∀ x ∈ acc, normalComp x = true) :
    ∀ x ∈ parts.foldl (cleanPush true) acc, normalComp x = true := by
  induction parts generalizing acc with
  | nil => exact hacc
  | cons c parts ih =>
    exact ih (cleanPush true acc c)
      (fun d hd => hp d (List.mem_cons_of_mem c hd))
      (cleanPush_all_normal acc c hacc (hp c (List.mem_cons_self c parts)))

theorem foldl_cleanPush_pushes (cs : List (List Char)) (r : Bool)
    (acc : List (List Char)) (h : ∀ c ∈ cs, normalComp c = true) :
    cs.foldl (cleanPush r) acc = cs.reverse ++ acc := by
  induction cs generalizing acc with
  | nil => simp
  | cons c cs ih =>
    show cs.foldl (cleanPush r) (cleanPush r acc c) = (c :: cs).reverse ++ acc
    rw [cleanPush_push r acc c (h c (List.mem_cons_self c cs))]
    rw [ih (c :: acc) (fun d hd => h d (List.mem_cons_of_mem c hd))]
    simp

theorem cleanData_rooted (p : List Char) (h : p.head? = some '/') :
    ∃ cs, (∀ c ∈ cs, normalComp c = true) ∧ cleanData p = '/' :: joinC cs := by
  refine ⟨((splitCh '/' p).foldl (cleanPush true) []).reverse, ?_, ?_⟩
  · intro c hc
    exact foldl_cleanPush_normal (splitCh '/' p) [] (splitCh_no_slash p)
      (by simp) c (List.mem_reverse.mp hc)
  · unfold cleanData
    rw [h]
    simp

theorem cleanData_rooted_eq (ds : List (List Char))
    (h : ∀ c ∈ ds, ('/' : Char) ∉ c) (hne : ds ≠ []) :
    cleanData ('/' :: joinC ds)
      = '/' :: joinC ((ds.foldl (cleanPush true) []).reverse) := by
  unfold cleanData
  rw [splitCh_cons_sep, splitCh_joinC ds hne h]
  simp [cleanPush_skip]

theorem cleanData_id_rooted (cs : List (List Char))
    (h : ∀ c ∈ cs, normalComp c = true) :
    cleanData ('/' :: joinC cs) = '/' :: joinC cs := by
  cases hcs : cs with
  | nil => rfl
  | cons c rest =>
    rw [← hcs]
    rw [cleanData_rooted_eq cs
      (fun c hc => (normalComp_spec c (h c hc)).2.2.2) (by rw [hcs]; simp)]
    rw [foldl_cleanPush_pushes cs true [] h]
    simp

theorem cleanData_id_rel (cs : List (List Char)) (hne : cs ≠ [])
    (h : ∀ c ∈ cs, normalComp c = true) : cleanData (joinC cs) = joinC cs := by
  cases hcs : cs with
  | nil => exact absurd hcs hne
  | cons c rest =>
    have hc : normalComp c = true := h c (by rw [hcs]; simp)
    obtain ⟨hc1, _, _, hc4⟩ := normalComp_spec c hc
    have hhead : (joinC (c :: rest)).head? = c.head? := joinC_head c rest hc1
    have hnotroot : (joinC cs).head? ≠ some '/' := by
      rw [hcs, hhead]
      cases c with
      | nil => exact absurd rfl hc1
      | cons a as =>
        simp only [List.head?]
        intro hcon
        apply hc4
        rw [List.mem_cons]
        left
        exact (Option.some_inj.mp hcon).symm
    unfold cleanData
    rw [← hcs]
    rw [if_neg hnotroot]
    rw [splitCh_joinC cs hne (fun d hd => (normalComp_spec d (h d hd)).2.2.2)]
    rw [foldl_cleanPush_pushes cs _ [] h]
    simp only [List.append_nil, List.reverse_reverse]
    rw [if_neg ?stackne]
    case stackne =>
      rw [hcs]
      simp

/-- A clean absolute path: `"/"` or `'/'` followed by slash-joined normal
components. -/
def cleanAbsB (s : String) : Bool :=
  match s.data with
  | '/' :: rest => rest.isEmpty || (splitCh '/' rest).all normalComp
  | _ => false

theorem cleanAbs_elim (s : String) (h : cleanAbsB s = true) :
    ∃ cs, (∀ c ∈ cs, normalComp c = true) ∧ s.data = '/' :: joinC cs := by
  unfold cleanAbsB at h
  split at h
  case h_1 rest heq =>
    have h' : rest.isEmpty = true ∨ (splitCh '/' rest).all normalComp = true := by
      simpa using h
    rcases h' with h1 | h2
    · refine ⟨[], by simp, ?_⟩
      rw [heq, List.isEmpty_iff.mp h1]
      rfl
    · refine ⟨splitCh '/' rest, ?_, ?_⟩
      · intro c hc
        exact List.all_eq_true.mp h2 c hc
      · rw [heq, joinC_splitCh rest]
  case h_2 => exact absurd h (by simp)

theorem cleanAbs_mk (cs : List (List Char))
    (h : ∀ c ∈ cs, normalComp c = true) :
    cleanAbsB (⟨'/' :: joinC cs⟩ : String) = true := by
  cases cs with
  | nil => rfl
  | cons c rest =>
    show ((joinC (c :: rest)).isEmpty
      || (splitCh '/' (joinC (c :: rest))).all normalComp) = true
    rw [splitCh_joinC (c :: rest) (by simp)
      (fun d hd => (normalComp_spec d (h d hd)).2.2.2)]
    rw [Bool.or_eq_true, List.all_eq_true]
    right
    exact h

theorem cleanAbs_cleanData_rooted (p : List Char) (h : p.head? = some '/') :
    cleanAbsB (⟨cleanData p⟩ : String) = true := by
  obtain ⟨cs, hcs, heq⟩ := cleanData_rooted p h
  rw [heq]
  exact cleanAbs_mk cs hcs

theorem isAbs_iff (s : String) : isAbsB s = true ↔ s.data.head? = some '/' := by
  simp [isAbsB]

theorem cleanAbs_isAbs (s : String) (h : cleanAbsB s = true) :
    isAbsB s = true := by
  obtain ⟨cs, _, hd⟩ := cleanAbs_elim s h
  rw [isAbs_iff, hd]
  rfl

theorem dirPart_head (rest : List Char) :
    (dirPart ('/' :: rest)).head? = some '/' := by
  unfold dirPart
  split
  · rfl
  · rw [if_pos rfl]
    rfl

theorem goDir_rooted_cleanAbs (f : String) (h : isAbsB f = true) :
    cleanAbsB (goDir f) = true := by
  rw [isAbs_iff] at h
  unfold goDir filepathClean
  cases hd : f.data with
  | nil => rw [hd] at h; exact absurd h (by simp)
  | cons c cs =>
    rw [hd] at h
    have hc : c = '/' := by
      simp only [List.head?] at h
      exact Option.some_inj.mp h
    subst hc
    exact cleanAbs_cleanData_rooted (dirPart ('/' :: cs)) (dirPart_head cs)

theorem dirPart_append_no_slash (l : List Char) (c : List Char)
    (hc : ('/' : Char) ∉ c) : dirPart (l ++ '/' :: c) = l ++ ['/'] := by
  induction l with
  | nil =>
    show dirPart ('/' :: c) = ['/']
    unfold dirPart
    rw [if_neg hc, if_pos rfl]
  | cons x l ih =>
    show dirPart (x :: (l ++ '/' :: c)) = x :: (l ++ ['/'])
    unfold dirPart
    rw [if_pos (by simp), ih]

theorem goDir_drop (cs : List (List Char))
    (h : ∀ c ∈ cs, normalComp c = true) :
    goDir (⟨'/' :: joinC cs⟩ : String)
      = (⟨'/' :: joinC cs.dropLast⟩ : String) := by
  induction cs using List.reverseRecOn with
  | nil => rfl
  | append_singleton cs' c ih =>
    clear ih
    have hc : normalComp c = true := h c (by simp)
    have hcsl : ('/' : Char) ∉ c := (normalComp_spec c hc).2.2.2
    cases hcs : cs' with
    | nil =>
      subst hcs
      show goDir ⟨'/' :: joinC [c]⟩ = _
      have : dirPart ('/' :: joinC [c]) = ['/'] := by
        show dirPart ('/' :: c) = ['/']
        unfold dirPart
        rw [if_neg hcsl, if_pos rfl]
      unfold goDir filepathClean
      rw [this]
      rfl
    | cons d ds =>
      rw [← hcs]
      have hne : cs' ≠ [] := by rw [hcs]; simp
      have hjc : joinC (cs' ++ [c]) = joinC cs' ++ '/' :: c :=
        joinC_concat cs' c hne
      have hnorm' : ∀ x ∈ cs', normalComp x = true :=
        fun x hx => h x (List.mem_append_left _ hx)
      have hnosl : ∀ x ∈ cs', ('/' : Char) ∉ x :=
        fun x hx => (normalComp_spec x (hnorm' x hx)).2.2.2
      have hdp : dirPart ('/' :: joinC (cs' ++ [c]))
          = ('/' :: joinC cs') ++ ['/'] := by
        rw [hjc]
        exact dirPart_append_no_slash ('/' :: joinC cs') c hcsl
      unfold goDir filepathClean
      rw [hdp]
      have htail : ('/' :: joinC cs') ++ ['/'] = '/' :: joinC (cs' ++ [[]]) := by
        rw [joinC_concat cs' [] hne]
        rfl
      rw [htail]
      have hclean : cleanData ('/' :: joinC (cs' ++ [[]]))
          = '/' :: joinC (((cs' ++ [[]]).foldl (cleanPush true) []).reverse) :=
        cleanData_rooted_eq (cs' ++ [[]])
          (by
            intro x hx
            rcases List.mem_append.mp hx with hx1 | hx2
            · exact hnosl x hx1
            · rw [List.mem_singleton.mp hx2]; simp)
          (by simp)
      rw [hclean]
      have hfold : (cs' ++ [[]]).foldl (cleanPush true) [] = cs'.reverse := by
        rw [List.foldl_append]
        rw [foldl_cleanPush_pushes cs' true [] hnorm']
        show cleanPush true (cs'.reverse ++ []) [] = cs'.reverse
        rw [cleanPush_skip true _ [] (Or.inl rfl)]
        simp
      rw [hfold, List.reverse_reverse, List.dropLast_concat]

/-! ## The archive builder (pkgs/archive/archive.go) — claims C7 and C9

`Archive.addDir` walks the `/`-separated components of a directory path
and emits one cpio directory entry per not-yet-marked prefix;
`Archive.AddFile` first ensures the destination's parent directory chain,
then emits the file — or, for a symlink, a link entry followed by a
recursive `AddFile` of the resolved target.  The cpio byte stream is
modelled as the list of entries written, in order; the symlink-chain
recursion of `AddFile` is given fuel (`none` = recursion still running).
The constant entry modes (`cpio.ModeDir | 0755` for directories,
`0644 | cpio.ModeSymlink` for links) are left implicit in the entry
kinds. -/

/-- One record of the cpio entry stream: a directory entry (name), a file
entry (name, permission bits copied from the source's mode, content), or
a symlink entry (name, raw link target as payload). -/
inductive Entry where
  | dir (name : String)
  | file (name : String) (perm : Nat) (content : String)
  | symlink (name : String) (target : String)
deriving DecidableEq, Repr

/-- The `Archive` struct: the two path sets and the cpio stream written so
far. -/
structure Archv where
  Dirs : StringSet := []
  Files : StringSet := []
  stream : List Entry := []
deriving DecidableEq, Repr

/-- `strings.Join(l, "/")`. -/
def strJoin (l : List String) : String := ⟨joinC (l.map String.data)⟩

/-- The indexed loop of `Archive.addDir`: `done` is `subdirs[:i]`; each
iteration computes `filepath.Join(strings.Join(subdirs[:i], "/"), subdir)`
and emits a directory entry unless that path is already marked. -/
def addDirLoop (a : Archv) (done : List String) : List String → Archv
  | [] => a
  | s :: rest =>
    let path := goJoin (strJoin done) s
    let a :=
      if getB a.Dirs path then a
      else { a with stream := a.stream ++ [Entry.dir path],
                    Dirs := setB a.Dirs path true }
    addDirLoop a (done ++ [s]) rest

/-- `Archive.addDir`. -/
def addDir (a : Archv) (dir : String) : Archv :=
  if getB a.Dirs dir then a
  else
    let dir := if dir = "/" then "." else dir
    let subdirs := (splitCh '/' (trimSlash dir).data).map (fun l => (⟨l⟩ : String))
    addDirLoop a [] subdirs

/-- What `os.Lstat`/`os.Readlink`/`os.Open` see for one path, for
`Archive.AddFile`. -/
structure FNode where
  isSymlink : Bool := false
  linkTarget : String := ""
  perm : Nat := 420
  content : String := ""
deriving DecidableEq, Repr

/-- A filesystem fragment for the archive builder. -/
abbrev ArcFS := List (String × FNode)

/-- Stat probe for the archive builder. -/
def arcGet (fs : ArcFS) (p : String) : Option FNode :=
  match fs with
  | [] => none
  | (k, v) :: rest => if k = p then some v else arcGet rest p

/-- `Archive.AddFile`, with fuel bounding the symlink-chain recursion
depth; the Go `error` result is `Option String` (`none` = `nil`). -/
def AddFile (fs : ArcFS) : Nat → Archv → String → String →
    Option (Archv × Option String)
  | 0 => fun _ _ _ => none
  | fuel + 1 => fun a file dest =>
    let a := addDir a (goDir dest)
    -- already written to cpio?
    if getB a.Files file then some (a, none)
    else
      match arcGet fs file with
      | none => some (a, some "AddFile: failed to stat file")
      | some node =>
        if node.isSymlink then
          let target := node.linkTarget
          let destFilename := trimSlash dest
          let a := { a with
            stream := a.stream ++ [Entry.symlink destFilename target],
            Files := setB a.Files file true }
          let target := if goDir target = "." then goJoin (goDir file) target
                        else target
          -- make sure target is an absolute path; the value returned by
          -- misc.RelativeSymlinkTargetToDir is filepath.Abs taken against
          -- the link's directory, independent of the working directory
          -- (proved above about the embedding of that function)
          let target := if !isAbsB target then filepathAbs (goDir file) target
                        else target
          AddFile fs fuel a target target
        else
          let destFilename := trimSlash dest
          some ({ a with
            stream := a.stream ++ [Entry.file destFilename node.perm node.content],
            Files := setB a.Files file true }, none)

/-- The name field of an entry. -/
def entryName : Entry → String
  | .dir n => n
  | .file n _ _ => n
  | .symlink n _ => n

/-- Directory-entry test. -/
def isDirE : Entry → Bool
  | .dir _ => true
  | _ => false

/-- The names of the directory entries of a stream, in order. -/
def dirNames : List Entry → List String
  | [] => []
  | Entry.dir n :: rest => n :: dirNames rest
  | Entry.file _ _ _ :: rest => dirNames rest
  | Entry.symlink _ _ :: rest => dirNames rest

/-- The ancestor directory names of an entry name: the slash-joins of the
proper nonempty prefixes of its `/`-separated component list. -/
def ancNames (name : String) : List String :=
  let cs := splitCh '/' name.data
  (List.range (cs.length - 1)).map (fun k => (⟨joinC (cs.take (k + 1))⟩ : String))

/-- The entry-stream invariant of claim C7, scanned left to right:
every entry's ancestor directories appear as directory entries earlier in
the stream, and no directory name is emitted twice.  `emitted` holds the
directory names already seen. -/
def streamOkFrom (emitted : List String) : List Entry → Bool
  | [] => true
  | Entry.dir n :: rest =>
    (ancNames n).all (memB emitted) && !memB emitted n
      && streamOkFrom (n :: emitted) rest
  | Entry.file n _ _ :: rest =>
    (ancNames n).all (memB emitted) && streamOkFrom emitted rest
  | Entry.symlink n _ :: rest =>
    (ancNames n).all (memB emitted) && streamOkFrom emitted rest

/-- Mark/stream agreement: a path is marked `true` in `Dirs` exactly when
it has been emitted as a directory entry. -/
def MarksOk (a : Archv) : Prop :=
  ∀ s, getB a.Dirs s = memB (dirNames a.stream) s

/-- The archive invariant: the stream invariant, mark/stream agreement,
and the fact that emitted directory names are archive-root-relative (no
leading separator) — which is how the code writes them. -/
def ArchInv (a : Archv) : Prop :=
  streamOkFrom [] a.stream = true ∧ MarksOk a ∧
    ∀ n ∈ dirNames a.stream, isAbsB n = false

/-- Decidable version of `ArchInv`, for concrete witnesses. -/
def archInvB (a : Archv) : Bool :=
  streamOkFrom [] a.stream &&
  (a.Dirs.map Prod.fst ++ dirNames a.stream).all
    (fun s => getB a.Dirs s == memB (dirNames a.stream) s) &&
  (dirNames a.stream).all (fun n => !isAbsB n)

theorem memB_false_iff (l : List String) (x : String) :
    memB l x = false ↔ x ∉ l := by
  constructor
  · intro h hx
    rw [(memB_iff l x).mpr hx] at h
    simp at h
  · intro h
    cases hb : memB l x with
    | false => rfl
    | true => exact absurd ((memB_iff l x).mp hb) h

theorem memB_reverse (l : List String) (x : String) :
    memB l.reverse x = memB l x := by
  by_cases h : x ∈ l
  · rw [(memB_iff _ _).mpr h, (memB_iff _ _).mpr (List.mem_reverse.mpr h)]
  · rw [(memB_false_iff _ _).mpr h,
      (memB_false_iff _ _).mpr (fun hc => h (List.mem_reverse.mp hc))]

theorem archInvB_iff (a : Archv) : archInvB a = true ↔ ArchInv a := by
  unfold archInvB ArchInv
  rw [Bool.and_eq_true, Bool.and_eq_true, List.all_eq_true, List.all_eq_true]
  constructor
  · rintro ⟨⟨h1, h2⟩, h3⟩
    refine ⟨h1, ?_, ?_⟩
    · intro s
      by_cases hs : s ∈ a.Dirs.map Prod.fst ++ dirNames a.stream
      · have := h2 s hs
        exact beq_iff_eq.mp this
      · rw [List.mem_append] at hs
        push_neg at hs
        rw [getB_eq_false a.Dirs s (fun p hp he =>
          hs.1 (he ▸ List.mem_map_of_mem Prod.fst hp))]
        rw [(memB_false_iff _ _).mpr hs.2]
    · intro n hn
      have := h3 n hn
      simpa using this
  · rintro ⟨h1, h2, h3⟩
    refine ⟨⟨h1, ?_⟩, ?_⟩
    · intro s _
      exact beq_iff_eq.mpr (h2 s)
    · intro n hn
      simpa using h3 n hn

theorem dirNames_append (l1 l2 : List Entry) :
    dirNames (l1 ++ l2) = dirNames l1 ++ dirNames l2 := by
  induction l1 with
  | nil => rfl
  | cons e l1 ih => cases e <;> simp [dirNames, ih]

theorem streamOkFrom_append (em : List String) (l1 l2 : List Entry) :
    streamOkFrom em (l1 ++ l2)
      = (streamOkFrom em l1
          && streamOkFrom ((dirNames l1).reverse ++ em) l2) := by
  induction l1 generalizing em with
  | nil => simp [streamOkFrom, dirNames]
  | cons e l1 ih =>
    cases e with
    | dir n =>
      show streamOkFrom em (Entry.dir n :: (l1 ++ l2)) = _
      rw [streamOkFrom, ih (n :: em)]
      simp [streamOkFrom, dirNames, Bool.and_assoc, List.append_assoc]
    | file n p c =>
      show streamOkFrom em (Entry.file n p c :: (l1 ++ l2)) = _
      rw [streamOkFrom, ih em]
      simp [streamOkFrom, dirNames, Bool.and_assoc]
    | symlink n t =>
      show streamOkFrom em (Entry.symlink n t :: (l1 ++ l2)) = _
      rw [streamOkFrom, ih em]
      simp [streamOkFrom, dirNames, Bool.and_assoc]

theorem strJoin_not_abs (l : List String) (hne : l ≠ [])
    (h : ∀ x ∈ l, normalComp x.data = true) : isAbsB (strJoin l) = false := by
  cases l with
  | nil => exact absurd rfl hne
  | cons d ds =>
    have hd : normalComp d.data = true := h d (List.mem_cons_self d ds)
    obtain ⟨hd1, _, _, hd4⟩ := normalComp_spec d.data hd
    have hhead : (joinC ((d :: ds).map String.data)).head? = d.data.head? := by
      show (joinC (d.data :: ds.map String.data)).head? = d.data.head?
      exact joinC_head d.data _ hd1
    rw [isAbsB]
    simp only [strJoin]
    rw [decide_eq_false_iff_not]
    intro hcon
    rw [hhead] at hcon
    cases hdd : d.data with
    | nil => exact hd1 hdd
    | cons a as =>
      rw [hdd] at hcon
      simp only [List.head?] at hcon
      apply hd4
      rw [hdd, (Option.some_inj.mp hcon)]
      exact List.mem_cons_self '/' as

theorem ancNames_join (cs : List (List Char)) (hne : cs ≠ [])
    (h : ∀ c ∈ cs, ('/' : Char) ∉ c) :
    ancNames (⟨joinC cs⟩ : String)
      = (List.range (cs.length - 1)).map
          (fun k => (⟨joinC (cs.take (k + 1))⟩ : String)) := by
  unfold ancNames
  rw [show (⟨joinC cs⟩ : String).data = joinC cs from rfl]
  rw [splitCh_joinC cs hne h]

theorem goJoin_strJoin (done : List String) (s : String)
    (hd : ∀ x ∈ done, normalComp x.data = true)
    (hs : normalComp s.data = true) :
    goJoin (strJoin done) s = strJoin (done ++ [s]) := by
  obtain ⟨hs1, _, _, hs4⟩ := normalComp_spec s.data hs
  have hsne : s ≠ "" := fun he => hs1 (by rw [he])
  cases done with
  | nil =>
    show goJoin "" s = strJoin [s]
    unfold goJoin
    rw [if_neg (by simp [hsne])]
    rw [if_pos rfl]
    show (⟨cleanData s.data⟩ : String) = ⟨s.data⟩
    have h2 : cleanData s.data = s.data :=
      cleanData_id_rel [s.data] (by simp) (by simpa using hs)
    rw [h2]
  | cons d ds =>
    have hdne : strJoin (d :: ds) ≠ "" := by
      intro he
      have : (strJoin (d :: ds)).data = [] := by rw [he]
      rw [show (strJoin (d :: ds)).data = joinC ((d :: ds).map String.data)
        from rfl] at this
      have hd1 : d.data ≠ [] :=
        (normalComp_spec d.data (hd d (List.mem_cons_self d ds))).1
      have := congrArg List.head? this
      rw [show ((d :: ds).map String.data) = d.data :: ds.map String.data
        from rfl] at this
      rw [joinC_head d.data _ hd1] at this
      cases hdd : d.data with
      | nil => exact hd1 hdd
      | cons a as => rw [hdd] at this; simp at this
    unfold goJoin
    rw [if_neg (by simp [hdne]), if_neg hdne, if_neg hsne]
    show (⟨cleanData ((strJoin (d :: ds)).data ++ '/' :: s.data)⟩ : String) = _
    have hjoin : (strJoin (d :: ds)).data ++ '/' :: s.data
        = joinC (((d :: ds) ++ [s]).map String.data) := by
      rw [List.map_append]
      show joinC ((d :: ds).map String.data) ++ '/' :: s.data
          = joinC ((d :: ds).map String.data ++ [s.data])
      rw [joinC_concat _ _ (by simp)]
    rw [hjoin]
    rw [cleanData_id_rel _ (by simp) ?hnorm]
    case hnorm =>
      intro c hc
      rw [List.map_append] at hc
      rcases List.mem_append.mp hc with hc1 | hc2
      · obtain ⟨x, hx, rfl⟩ := List.mem_map.mp hc1
        exact hd x hx
      · obtain ⟨x, hx, rfl⟩ := List.mem_map.mp hc2
        rw [List.mem_singleton.mp hx]
        exact hs
    rfl

theorem addDirLoop_files (rest : List String) :
    ∀ (a : Archv) (done : List String),
      (addDirLoop a done rest).Files = a.Files := by
  induction rest with
  | nil => intro a done; rfl
  | cons s rest ih =>
    intro a done
    show (addDirLoop _ (done ++ [s]) rest).Files = a.Files
    rw [ih]
    split <;> rfl

theorem addDirLoop_stream (rest : List String) :
    ∀ (a : Archv) (done : List String),
      ∃ tail, (addDirLoop a done rest).stream = a.stream ++ tail ∧
        ∀ e ∈ tail, isDirE e = true := by
  induction rest with
  | nil => exact fun a done => ⟨[], by simp [addDirLoop], by simp⟩
  | cons s rest ih =>
    intro a done
    show ∃ tail, (addDirLoop _ (done ++ [s]) rest).stream = a.stream ++ tail ∧ _
    split
    · exact ih a (done ++ [s])
    · obtain ⟨tail, h1, h2⟩ := ih
        { a with stream := a.stream ++ [Entry.dir (goJoin (strJoin done) s)],
                 Dirs := setB a.Dirs (goJoin (strJoin done) s) true }
        (done ++ [s])
      refine ⟨Entry.dir (goJoin (strJoin done) s) :: tail, ?_, ?_⟩
      · rw [h1]
        simp
      · intro e he
        rcases List.mem_cons.mp he with rfl | he2
        · rfl
        · exact h2 e he2

theorem addDir_files (a : Archv) (d : String) : (addDir a d).Files = a.Files := by
  unfold addDir
  split
  · rfl
  · rw [addDirLoop_files]

theorem addDir_stream (a : Archv) (d : String) :
    ∃ tail, (addDir a d).stream = a.stream ++ tail ∧
      ∀ e ∈ tail, isDirE e = true := by
  unfold addDir
  split
  · exact ⟨[], by simp, by simp⟩
  · exact addDirLoop_stream _ a []

theorem memB_singleton_self (p : String) : memB [p] p = true := by simp [memB]

theorem memB_singleton_ne (p x : String) (h : p ≠ x) : memB [p] x = false := by
  simp [memB, h]

/-- The invariant-preservation workhorse for `addDir`'s loop: starting
from an invariant-satisfying archive in which every nonempty prefix of
`done` is already emitted, processing `rest` preserves the invariant and
afterwards every nonempty prefix of `done ++ rest` is emitted. -/
theorem addDirLoop_spec (rest : List String) :
    ∀ (done : List String) (a : Archv),
      (∀ x ∈ done ++ rest, normalComp x.data = true) →
      ArchInv a →
      (∀ k, 1 ≤ k → k ≤ done.length →
        memB (dirNames a.stream) (strJoin (done.take k)) = true) →
      ArchInv (addDirLoop a done rest) ∧
      (∀ k, 1 ≤ k → k ≤ done.length + rest.length →
        memB (dirNames (addDirLoop a done rest).stream)
          (strJoin ((done ++ rest).take k)) = true) := by
  induction rest with
  | nil =>
    intro done a hnorm hInv hpre
    refine ⟨hInv, ?_⟩
    intro k hk1 hk2
    simp only [List.length_nil, Nat.add_zero] at hk2
    have := hpre k hk1 hk2
    simpa [addDirLoop] using this
  | cons s rest ih =>
    intro done a hnorm hInv hpre
    have hsnorm : normalComp s.data = true := hnorm s (by simp)
    have hdnorm : ∀ x ∈ done, normalComp x.data = true :=
      fun x hx => hnorm x (List.mem_append_left _ hx)
    have hdsnorm : ∀ x ∈ done ++ [s], normalComp x.data = true := by
      intro x hx
      rcases List.mem_append.mp hx with hx1 | hx2
      · exact hdnorm x hx1
      · rw [List.mem_singleton.mp hx2]; exact hsnorm
    have hpath : goJoin (strJoin done) s = strJoin (done ++ [s]) :=
      goJoin_strJoin done s hdnorm hsnorm
    have hgoal : addDirLoop a done (s :: rest)
        = addDirLoop
            (if getB a.Dirs (strJoin (done ++ [s])) then a
             else { a with
               stream := a.stream ++ [Entry.dir (strJoin (done ++ [s]))],
               Dirs := setB a.Dirs (strJoin (done ++ [s])) true })
            (done ++ [s]) rest := by
      show addDirLoop
          (if getB a.Dirs (goJoin (strJoin done) s) then a
           else { a with
             stream := a.stream ++ [Entry.dir (goJoin (strJoin done) s)],
             Dirs := setB a.Dirs (goJoin (strJoin done) s) true })
          (done ++ [s]) rest = _
      rw [hpath]
    rw [hgoal]
    have hnorm' : ∀ x ∈ (done ++ [s]) ++ rest, normalComp x.data = true := by
      intro x hx
      apply hnorm
      rw [List.append_assoc] at hx
      exact hx
    -- the two halves of the conclusion, for either branch
    by_cases hmark : getB a.Dirs (strJoin (done ++ [s])) = true
    · rw [if_pos hmark]
      have hpre' : ∀ k, 1 ≤ k → k ≤ (done ++ [s]).length →
          memB (dirNames a.stream) (strJoin ((done ++ [s]).take k)) = true := by
        intro k hk1 hk2
        simp only [List.length_append, List.length_singleton] at hk2
        rcases Nat.lt_or_ge k (done.length + 1) with hk | hk
        · have hkle : k ≤ done.length := by omega
          rw [List.take_append_of_le_length hkle]
          exact hpre k hk1 hkle
        · have hkeq : k = done.length + 1 := by omega
          subst hkeq
          rw [List.take_of_length_le (by simp)]
          rw [← (hInv.2.1 (strJoin (done ++ [s])))]
          exact hmark
      obtain ⟨hI, hP⟩ := ih (done ++ [s]) a hnorm' hInv hpre'
      refine ⟨hI, ?_⟩
      intro k hk1 hk2
      have := hP k hk1 (by simp at hk2 ⊢; omega)
      rw [List.append_assoc] at this
      simpa using this
    · rw [if_neg hmark]
      have hmarkf : getB a.Dirs (strJoin (done ++ [s])) = false :=
        eq_false_of_ne_true hmark
      set p := strJoin (done ++ [s]) with hp
      set aX : Archv :=
        { a with stream := a.stream ++ [Entry.dir p],
                 Dirs := setB a.Dirs p true } with haX
      have hdirX : dirNames aX.stream = dirNames a.stream ++ [p] := by
        show dirNames (a.stream ++ [Entry.dir p]) = _
        rw [dirNames_append]
        rfl
      have hmemX : ∀ x, memB (dirNames aX.stream) x
          = (memB (dirNames a.stream) x || memB [p] x) := by
        intro x
        rw [hdirX, memB_append]
      have hnotmem : memB (dirNames a.stream) p = false := by
        rw [← hInv.2.1 p]
        exact hmarkf
      have hInvX : ArchInv aX := by
        refine ⟨?_, ?_, ?_⟩
        · show streamOkFrom [] (a.stream ++ [Entry.dir p]) = true
          rw [streamOkFrom_append]
          rw [Bool.and_eq_true]
          refine ⟨hInv.1, ?_⟩
          show ((ancNames p).all (memB ((dirNames a.stream).reverse ++ []))
            && !memB ((dirNames a.stream).reverse ++ []) p
            && streamOkFrom (p :: ((dirNames a.stream).reverse ++ [])) []) = true
          have hmemrev : ∀ x, memB ((dirNames a.stream).reverse ++ []) x
              = memB (dirNames a.stream) x := by
            intro x
            rw [List.append_nil, memB_reverse]
          rw [Bool.and_eq_true, Bool.and_eq_true]
          refine ⟨⟨?_, ?_⟩, rfl⟩
          · rw [List.all_eq_true]
            intro x hx
            have hanc : ancNames p
                = (List.range ((done ++ [s]).length - 1)).map
                    (fun k => (⟨joinC (((done ++ [s]).map String.data).take (k + 1))⟩ : String)) := by
              rw [hp]
              show ancNames ⟨joinC ((done ++ [s]).map String.data)⟩ = _
              rw [ancNames_join _ (by simp)
                (fun c hc => by
                  obtain ⟨y, hy, rfl⟩ := List.mem_map.mp hc
                  exact (normalComp_spec y.data (hdsnorm y hy)).2.2.2)]
              simp
            rw [hanc] at hx
            obtain ⟨k, hk, rfl⟩ := List.mem_map.mp hx
            rw [List.mem_range] at hk
            simp only [List.length_append, List.length_singleton] at hk
            have hk1 : k + 1 ≤ done.length := by omega
            have htk : ((done ++ [s]).map String.data).take (k + 1)
                = (done.take (k + 1)).map String.data := by
              rw [← List.map_take, List.take_append_of_le_length hk1]
            rw [hmemrev, htk]
            exact hpre (k + 1) (by omega) hk1
          · rw [hmemrev, hnotmem]
            rfl
        · intro s'
          show getB (setB a.Dirs p true) s' = _
          rw [hmemX]
          by_cases hs' : p = s'
          · subst hs'
            rw [getB_setB_self, memB_singleton_self]
            simp
          · rw [getB_setB_ne _ _ _ _ hs', memB_singleton_ne _ _ hs']
            rw [hInv.2.1 s']
            simp
        · intro n hn
          rw [hdirX] at hn
          rcases List.mem_append.mp hn with hn1 | hn2
          · exact hInv.2.2 n hn1
          · rw [List.mem_singleton.mp hn2]
            exact strJoin_not_abs (done ++ [s]) (by simp) hdsnorm
      have hpreX : ∀ k, 1 ≤ k → k ≤ (done ++ [s]).length →
          memB (dirNames aX.stream) (strJoin ((done ++ [s]).take k)) = true := by
        intro k hk1 hk2
        simp only [List.length_append, List.length_singleton] at hk2
        rw [hmemX]
        rcases Nat.lt_or_ge k (done.length + 1) with hk | hk
        · have hkle : k ≤ done.length := by omega
          rw [List.take_append_of_le_length hkle]
          rw [hpre k hk1 hkle]
          rfl
        · have hkeq : k = done.length + 1 := by omega
          subst hkeq
          rw [List.take_of_length_le (by simp)]
          rw [memB_singleton_self]
          simp
      obtain ⟨hI, hP⟩ := ih (done ++ [s]) aX hnorm' hInvX hpreX
      refine ⟨hI, ?_⟩
      intro k hk1 hk2
      have := hP k hk1 (by simp at hk2 ⊢; omega)
      rw [List.append_assoc] at this
      simpa using this

/-- Appending a non-directory entry whose ancestors are all emitted
preserves the archive invariant (the directory marks and names are
untouched). -/
theorem inv_extend_nondir (a a2 : Archv) (e : Entry) (hInv : ArchInv a)
    (hstream : a2.stream = a.stream ++ [e]) (hdirs : a2.Dirs = a.Dirs)
    (hnd : isDirE e = false)
    (hanc : ∀ x ∈ ancNames (entryName e),
      memB (dirNames a.stream) x = true) : ArchInv a2 := by
  have hdn : dirNames a2.stream = dirNames a.stream := by
    rw [hstream, dirNames_append]
    cases e with
    | dir n => simp [isDirE] at hnd
    | file n p c => simp [dirNames]
    | symlink n t => simp [dirNames]
  refine ⟨?_, ?_, ?_⟩
  · rw [hstream, streamOkFrom_append, Bool.and_eq_true]
    refine ⟨hInv.1, ?_⟩
    have hmemrev : ∀ x, memB ((dirNames a.stream).reverse ++ []) x
        = memB (dirNames a.stream) x := by
      intro x
      rw [List.append_nil, memB_reverse]
    cases e with
    | dir n => simp [isDirE] at hnd
    | file n p c =>
      show ((ancNames n).all (memB ((dirNames a.stream).reverse ++ []))
        && streamOkFrom ((dirNames a.stream).reverse ++ []) []) = true
      rw [Bool.and_eq_true]
      refine ⟨?_, rfl⟩
      rw [List.all_eq_true]
      intro x hx
      rw [hmemrev]
      exact hanc x hx
    | symlink n t =>
      show ((ancNames n).all (memB ((dirNames a.stream).reverse ++ []))
        && streamOkFrom ((dirNames a.stream).reverse ++ []) []) = true
      rw [Bool.and_eq_true]
      refine ⟨?_, rfl⟩
      rw [List.all_eq_true]
      intro x hx
      rw [hmemrev]
      exact hanc x hx
  · intro s
    rw [hdn, hdirs]
    exact hInv.2.1 s
  · intro n hn
    rw [hdn] at hn
    exact hInv.2.2 n hn

/-- Emitting a fresh non-rooted directory entry whose ancestors are all
emitted preserves the archive invariant. -/
theorem inv_emit_dir (a : Archv) (p : String) (hInv : ArchInv a)
    (hanc : ∀ x ∈ ancNames p, memB (dirNames a.stream) x = true)
    (hnm : getB a.Dirs p = false) (hnabs : isAbsB p = false) :
    ArchInv { a with stream := a.stream ++ [Entry.dir p],
                     Dirs := setB a.Dirs p true } := by
  have hnotmem : memB (dirNames a.stream) p = false := by
    rw [← hInv.2.1 p]
    exact hnm
  have hdn : dirNames (a.stream ++ [Entry.dir p])
      = dirNames a.stream ++ [p] := by
    rw [dirNames_append]
    rfl
  have hmemrev : ∀ x, memB ((dirNames a.stream).reverse ++ []) x
      = memB (dirNames a.stream) x := by
    intro x
    rw [List.append_nil, memB_reverse]
  refine ⟨?_, ?_, ?_⟩
  · show streamOkFrom [] (a.stream ++ [Entry.dir p]) = true
    rw [streamOkFrom_append, Bool.and_eq_true]
    refine ⟨hInv.1, ?_⟩
    show ((ancNames p).all (memB ((dirNames a.stream).reverse ++ []))
      && !memB ((dirNames a.stream).reverse ++ []) p
      && streamOkFrom (p :: ((dirNames a.stream).reverse ++ [])) []) = true
    rw [Bool.and_eq_true, Bool.and_eq_true]
    refine ⟨⟨?_, ?_⟩, rfl⟩
    · rw [List.all_eq_true]
      intro x hx
      rw [hmemrev]
      exact hanc x hx
    · rw [hmemrev, hnotmem]
      rfl
  · intro s
    show getB (setB a.Dirs p true) s = memB (dirNames (a.stream ++ [Entry.dir p])) s
    rw [hdn, memB_append]
    by_cases hs : p = s
    · subst hs
      rw [getB_setB_self, memB_singleton_self]
      simp
    · rw [getB_setB_ne _ _ _ _ hs, memB_singleton_ne _ _ hs]
      rw [hInv.2.1 s]
      simp
  · intro n hn
    have hn2 : n ∈ dirNames (a.stream ++ [Entry.dir p]) := hn
    rw [hdn] at hn2
    rcases List.mem_append.mp hn2 with hn1 | hn2
    · exact hInv.2.2 n hn1
    · rw [List.mem_singleton.mp hn2]
      exact hnabs

theorem strJoin_map_mk (cs : List (List Char)) :
    strJoin (cs.map (fun l => (⟨l⟩ : String))) = (⟨joinC cs⟩ : String) := by
  unfold strJoin
  rw [List.map_map]
  have he : (String.data ∘ fun l => (⟨l⟩ : String)) = fun l => l := rfl
  rw [he]
  simp

/-- A rooted path is never marked `true` in an invariant-satisfying
archive (only archive-root-relative names are ever marked). -/
theorem getB_rooted_false (a : Archv) (d : String) (hInv : ArchInv a)
    (habs : isAbsB d = true) : getB a.Dirs d = false := by
  rw [hInv.2.1 d]
  rw [memB_false_iff]
  intro hmem
  rw [hInv.2.2 d hmem] at habs
  exact absurd habs (by simp)

/-- `addDir` on a clean absolute path with nonempty component list `cs`
preserves the invariant and leaves every nonempty prefix of `cs`
emitted. -/
theorem addDir_spec (a : Archv) (cs : List (List Char))
    (h : ∀ c ∈ cs, normalComp c = true) (hne : cs ≠ []) (hInv : ArchInv a) :
    ArchInv (addDir a ⟨'/' :: joinC cs⟩) ∧
    (∀ k, 1 ≤ k → k ≤ cs.length →
      memB (dirNames (addDir a ⟨'/' :: joinC cs⟩).stream)
        (⟨joinC (cs.take k)⟩ : String) = true) := by
  have habs : isAbsB (⟨'/' :: joinC cs⟩ : String) = true := by
    rw [isAbs_iff]
    rfl
  have hnm : getB a.Dirs ⟨'/' :: joinC cs⟩ = false :=
    getB_rooted_false a _ hInv habs
  have hdne : (⟨'/' :: joinC cs⟩ : String) ≠ "/" := by
    intro he
    have hdata : '/' :: joinC cs = ['/'] := by
      have := congrArg String.data he
      exact this
    have hje : joinC cs = [] := by
      injection hdata
    cases hcs : cs with
    | nil => exact hne hcs
    | cons c rest =>
      have hc1 : c ≠ [] := (normalComp_spec c (h c (by rw [hcs]; simp))).1
      have := joinC_head c rest hc1
      rw [← hcs, hje] at this
      cases hcc : c with
      | nil => exact hc1 hcc
      | cons x xs =>
        rw [hcc] at this
        simp at this
  have hsub : (splitCh '/' (trimSlash ⟨'/' :: joinC cs⟩).data).map
      (fun l => (⟨l⟩ : String)) = cs.map (fun l => (⟨l⟩ : String)) := by
    have hts : (trimSlash (⟨'/' :: joinC cs⟩ : String)).data = joinC cs := rfl
    rw [hts, splitCh_joinC cs hne
      (fun c hc => (normalComp_spec c (h c hc)).2.2.2)]
  have hnorms : ∀ x ∈ ([] : List String) ++ cs.map (fun l => (⟨l⟩ : String)),
      normalComp x.data = true := by
    intro x hx
    rw [List.nil_append] at hx
    obtain ⟨c, hc, rfl⟩ := List.mem_map.mp hx
    exact h c hc
  have hgoal : addDir a ⟨'/' :: joinC cs⟩
      = addDirLoop a [] (cs.map (fun l => (⟨l⟩ : String))) := by
    unfold addDir
    rw [if_neg (by rw [hnm]; simp)]
    show addDirLoop a []
      ((splitCh '/' (trimSlash (if (⟨'/' :: joinC cs⟩ : String) = "/" then "."
          else (⟨'/' :: joinC cs⟩ : String))).data).map
        (fun l => (⟨l⟩ : String))) = _
    rw [if_neg hdne, hsub]
  rw [hgoal]
  obtain ⟨hI, hP⟩ := addDirLoop_spec (cs.map (fun l => (⟨l⟩ : String))) [] a
    hnorms hInv (by intro k hk1 hk2; simp at hk2; omega)
  refine ⟨hI, ?_⟩
  intro k hk1 hk2
  have := hP k hk1 (by simpa using hk2)
  rw [List.nil_append, ← List.map_take, strJoin_map_mk] at this
  exact this

/-- `addDir a "/"` emits (at most) the root entry `"."` and preserves the
invariant; afterwards `"."` is always marked. -/
theorem addDir_root (a : Archv) (hInv : ArchInv a) :
    ArchInv (addDir a "/") ∧ getB (addDir a "/").Dirs "." = true := by
  have hnm : getB a.Dirs "/" = false :=
    getB_rooted_false a _ hInv (by rw [isAbs_iff]; rfl)
  have hgoal : addDir a "/"
      = (if getB a.Dirs "." then a
         else { a with stream := a.stream ++ [Entry.dir "."],
                       Dirs := setB a.Dirs "." true }) := by
    unfold addDir
    rw [if_neg (by rw [hnm]; simp), if_pos rfl]
    show addDirLoop a [] ["."] = _
    show addDirLoop (if getB a.Dirs (goJoin (strJoin []) ".") then a
      else { a with stream := a.stream ++ [Entry.dir (goJoin (strJoin []) ".")],
                    Dirs := setB a.Dirs (goJoin (strJoin []) ".") true })
      ([] ++ ["."]) [] = _
    have hdot : goJoin (strJoin []) "." = "." := rfl
    rw [hdot]
    rfl
  rw [hgoal]
  by_cases hdot : getB a.Dirs "." = true
  · rw [if_pos hdot]
    exact ⟨hInv, hdot⟩
  · have hdotf : getB a.Dirs "." = false := eq_false_of_ne_true hdot
    rw [if_neg (by rw [hdotf]; simp)]
    refine ⟨?_, ?_⟩
    · refine inv_emit_dir a "." hInv ?_ hdotf (by rfl)
      intro x hx
      have he : ancNames "." = [] := rfl
      rw [he] at hx
      simp at hx
    · exact getB_setB_self a.Dirs "." true

/-- If every prefix path the loop would compute is already marked, the
loop changes nothing. -/
theorem addDirLoop_id (a : Archv) (rest : List String) :
    ∀ done : List String,
      (∀ x ∈ done ++ rest, normalComp x.data = true) →
      (∀ k, 1 ≤ k → k ≤ done.length + rest.length →
        getB a.Dirs (strJoin ((done ++ rest).take k)) = true) →
      addDirLoop a done rest = a := by
  induction rest with
  | nil => intro done _ _; rfl
  | cons s rest ih =>
    intro done hnorm hmk
    have hsnorm : normalComp s.data = true := hnorm s (by simp)
    have hdnorm : ∀ x ∈ done, normalComp x.data = true :=
      fun x hx => hnorm x (List.mem_append_left _ hx)
    have hpath : goJoin (strJoin done) s = strJoin (done ++ [s]) :=
      goJoin_strJoin done s hdnorm hsnorm
    have htake : (done ++ s :: rest).take (done.length + 1) = done ++ [s] := by
      rw [List.take_append_eq_append_take]
      rw [List.take_of_length_le (by omega)]
      have : done.length + 1 - done.length = 1 := by omega
      rw [this]
      simp
    have hmarked : getB a.Dirs (strJoin (done ++ [s])) = true := by
      have := hmk (done.length + 1) (by omega)
        (by simp only [List.length_cons]; omega)
      rw [htake] at this
      exact this
    have hgoal : addDirLoop a done (s :: rest)
        = addDirLoop a (done ++ [s]) rest := by
      show addDirLoop
        (if getB a.Dirs (goJoin (strJoin done) s) then a
         else { a with stream := a.stream ++ [Entry.dir (goJoin (strJoin done) s)],
                       Dirs := setB a.Dirs (goJoin (strJoin done) s) true })
        (done ++ [s]) rest = _
      rw [hpath, if_pos hmarked]
    rw [hgoal]
    apply ih (done ++ [s])
    · intro x hx
      apply hnorm
      rw [List.append_assoc] at hx
      exact hx
    · intro k hk1 hk2
      rw [List.append_assoc]
      have := hmk k hk1 (by simp at hk2 ⊢; omega)
      simpa using this

/-- Re-adding a directory that has already been added is a no-op: the
second `addDir` returns the archive unchanged. -/
theorem addDir_idem (a : Archv) (d : String) (hInv : ArchInv a)
    (hd : cleanAbsB d = true) : addDir (addDir a d) d = addDir a d := by
  obtain ⟨cs, hcs, hdata⟩ := cleanAbs_elim d hd
  have hdeq : d = ⟨'/' :: joinC cs⟩ := str_data_inj _ _ hdata
  subst hdeq
  cases hcse : cs with
  | nil =>
    subst hcse
    show addDir (addDir a "/") "/" = addDir a "/"
    obtain ⟨hInv2, hdot⟩ := addDir_root a hInv
    set a2 := addDir a "/" with ha2
    have hnm2 : getB a2.Dirs "/" = false :=
      getB_rooted_false _ _ hInv2 (by rw [isAbs_iff]; rfl)
    unfold addDir
    rw [if_neg (by rw [hnm2]; simp)]
    show addDirLoop a2 []
      ((splitCh '/' (trimSlash (if ("/" : String) = "/" then "." else "/")).data).map
        (fun l => (⟨l⟩ : String))) = a2
    rw [if_pos rfl]
    show addDirLoop
      (if getB a2.Dirs (goJoin (strJoin []) ".") then a2
       else { a2 with stream := a2.stream ++ [Entry.dir (goJoin (strJoin []) ".")],
                      Dirs := setB a2.Dirs (goJoin (strJoin []) ".") true })
      ([] ++ ["."]) [] = a2
    have hdotp : goJoin (strJoin []) "." = "." := rfl
    rw [hdotp, if_pos hdot]
    rfl
  | cons c0 cs0 =>
    rw [← hcse]
    have hne : cs ≠ [] := by rw [hcse]; simp
    obtain ⟨hInv2, hP⟩ := addDir_spec a cs hcs hne hInv
    set a2 := addDir a (⟨'/' :: joinC cs⟩ : String) with ha2
    have habs : isAbsB (⟨'/' :: joinC cs⟩ : String) = true := by
      rw [isAbs_iff]; rfl
    have hnm2 : getB a2.Dirs ⟨'/' :: joinC cs⟩ = false :=
      getB_rooted_false _ _ hInv2 habs
    have hdne : (⟨'/' :: joinC cs⟩ : String) ≠ "/" := by
      intro he
      have hdata2 : '/' :: joinC cs = ['/'] := congrArg String.data he
      have hje : joinC cs = [] := by injection hdata2
      have hc1 : c0 ≠ [] := (normalComp_spec c0 (hcs c0 (by rw [hcse]; simp))).1
      have := joinC_head c0 cs0 hc1
      rw [← hcse, hje] at this
      cases hcc : c0 with
      | nil => exact hc1 hcc
      | cons x xs => rw [hcc] at this; simp at this
    have hsub : (splitCh '/' (trimSlash ⟨'/' :: joinC cs⟩).data).map
        (fun l => (⟨l⟩ : String)) = cs.map (fun l => (⟨l⟩ : String)) := by
      have hts : (trimSlash (⟨'/' :: joinC cs⟩ : String)).data = joinC cs := rfl
      rw [hts, splitCh_joinC cs hne
        (fun c hc => (normalComp_spec c (hcs c hc)).2.2.2)]
    unfold addDir
    rw [if_neg (by rw [hnm2]; simp)]
    show addDirLoop a2 []
      ((splitCh '/' (trimSlash (if (⟨'/' :: joinC cs⟩ : String) = "/" then "."
          else (⟨'/' :: joinC cs⟩ : String))).data).map
        (fun l => (⟨l⟩ : String))) = a2
    rw [if_neg hdne, hsub]
    apply addDirLoop_id a2 (cs.map (fun l => (⟨l⟩ : String))) []
    · intro x hx
      rw [List.nil_append] at hx
      obtain ⟨c, hc, rfl⟩ := List.mem_map.mp hx
      exact hcs c hc
    · intro k hk1 hk2
      simp only [List.nil_append, List.length_nil, Nat.zero_add] at hk2 ⊢
      rw [← List.map_take, strJoin_map_mk]
      rw [hInv2.2.1]
      exact hP k hk1 (by simpa using hk2)

theorem head_append_rooted (a : String) (ha : isAbsB a = true) (l : List Char) :
    (a.data ++ l).head? = some '/' := by
  rw [isAbs_iff] at ha
  cases had : a.data with
  | nil => rw [had] at ha; simp at ha
  | cons c as =>
    rw [had] at ha
    exact ha

theorem isAbs_empty_false : isAbsB "" = false := by rfl

theorem goJoin_rooted (a b : String) (ha : isAbsB a = true) :
    cleanAbsB (goJoin a b) = true := by
  have hane : a ≠ "" := by
    intro he
    rw [he] at ha
    exact absurd ha (by simp [isAbs_empty_false])
  unfold goJoin
  rw [if_neg (by simp [hane])]
  rw [if_neg hane]
  by_cases hb : b = ""
  · rw [if_pos hb]
    exact cleanAbs_cleanData_rooted a.data ((isAbs_iff a).mp ha)
  · rw [if_neg hb]
    exact cleanAbs_cleanData_rooted _ (head_append_rooted a ha ('/' :: b.data))

theorem filepathAbs_cleanAbs (wd p : String) (hwd : isAbsB wd = true)
    (hp : isAbsB p = false) : cleanAbsB (filepathAbs wd p) = true := by
  unfold filepathAbs
  rw [if_neg (by rw [hp]; simp)]
  by_cases hpe : p = ""
  · rw [if_pos hpe]
    exact cleanAbs_cleanData_rooted wd.data ((isAbs_iff wd).mp hwd)
  · rw [if_neg hpe]
    exact cleanAbs_cleanData_rooted _ (head_append_rooted wd hwd ('/' :: p.data))

/-- `addDir` preserves the archive invariant on any clean absolute
path. -/
theorem addDir_inv (a : Archv) (d : String) (hInv : ArchInv a)
    (hd : cleanAbsB d = true) : ArchInv (addDir a d) := by
  obtain ⟨cs, hcs, hdata⟩ := cleanAbs_elim d hd
  have hdeq : d = ⟨'/' :: joinC cs⟩ := str_data_inj _ _ hdata
  subst hdeq
  cases hcse : cs with
  | nil =>
    subst hcse
    exact (addDir_root a hInv).1
  | cons c0 cs0 =>
    rw [← hcse]
    exact (addDir_spec a cs hcs (by rw [hcse]; simp) hInv).1

/-- After `addDir a (goDir dest)` on a clean absolute `dest`, the archive
invariant holds and every ancestor directory of `dest`'s archive name has
been emitted. -/
theorem addDir_goDir_spec (a : Archv) (dest : String) (hInv : ArchInv a)
    (hd : cleanAbsB dest = true) :
    ArchInv (addDir a (goDir dest)) ∧
    ∀ x ∈ ancNames (trimSlash dest),
      memB (dirNames (addDir a (goDir dest)).stream) x = true := by
  obtain ⟨cs, hcs, hdata⟩ := cleanAbs_elim dest hd
  have hdeq : dest = ⟨'/' :: joinC cs⟩ := str_data_inj _ _ hdata
  subst hdeq
  have hgd : goDir ⟨'/' :: joinC cs⟩ = ⟨'/' :: joinC cs.dropLast⟩ :=
    goDir_drop cs hcs
  rw [hgd]
  cases hcse : cs with
  | nil =>
    subst hcse
    constructor
    · exact (addDir_root a hInv).1
    · intro x hx
      have he : ancNames (trimSlash (⟨'/' :: joinC ([] : List (List Char))⟩ : String)) = [] := rfl
      rw [he] at hx
      simp at hx
  | cons c0 cs0 =>
    rw [← hcse]
    have hne : cs ≠ [] := by rw [hcse]; simp
    have hnosl : ∀ c ∈ cs, ('/' : Char) ∉ c :=
      fun c hc => (normalComp_spec c (hcs c hc)).2.2.2
    by_cases hdl : cs.dropLast = []
    · rw [hdl]
    -- single component: the parent is the root, and there are no ancestors
      have hcs0 : cs0 = [] := by
        cases hcs0 : cs0 with
        | nil => rfl
        | cons d ds =>
          rw [hcse, hcs0] at hdl
          simp at hdl
      constructor
      · exact (addDir_root a hInv).1
      · intro x hx
        have hcseq : cs = [c0] := by rw [hcse, hcs0]
        have he : ancNames (trimSlash (⟨'/' :: joinC cs⟩ : String)) = [] := by
          rw [hcseq]
          have hc0 : ('/' : Char) ∉ c0 := by
            apply hnosl
            rw [hcseq]
            simp
          show ancNames ⟨joinC [c0]⟩ = []
          unfold ancNames
          rw [show (⟨joinC [c0]⟩ : String).data = joinC [c0] from rfl]
          have hsp : splitCh '/' (joinC [c0]) = [c0] :=
            splitCh_joinC [c0] (by simp)
              (by intro x hx2; rw [List.mem_singleton.mp hx2]; exact hc0)
          rw [hsp]
          rfl
        rw [he] at hx
        simp at hx
    · obtain ⟨hI, hP⟩ := addDir_spec a cs.dropLast
        (fun c hc => hcs c (List.dropLast_subset cs hc)) hdl hInv
      refine ⟨hI, ?_⟩
      intro x hx
      have hanc := ancNames_join cs hne hnosl
      have hx2 : x ∈ (List.range (cs.length - 1)).map
          (fun k => (⟨joinC (cs.take (k + 1))⟩ : String)) := by
        rw [← hanc]
        exact hx
      obtain ⟨k, hk, rfl⟩ := List.mem_map.mp hx2
      rw [List.mem_range] at hk
      have htk : cs.take (k + 1) = (cs.dropLast).take (k + 1) := by
        rw [List.dropLast_eq_take, List.take_take]
        congr 1
        omega
      rw [htk]
      exact hP (k + 1) (by omega) (by rw [List.length_dropLast]; omega)

/-- The fully resolved symlink target computed by `AddFile` is a clean
absolute path whenever the source file path is absolute and any raw
absolute target is clean. -/
theorem symlink_target_clean (file t1 : String) (hfile : isAbsB file = true)
    (h1 : cleanAbsB t1 = true ∨ isAbsB t1 = false) :
    cleanAbsB (if !isAbsB t1 then filepathAbs (goDir file) t1 else t1)
      = true := by
  have hgdabs : isAbsB (goDir file) = true :=
    cleanAbs_isAbs _ (goDir_rooted_cleanAbs file hfile)
  by_cases habs1 : isAbsB t1 = true
  · rw [habs1]
    simp only [Bool.not_true, Bool.false_eq_true, if_false]
    rcases h1 with h1 | h1
    · exact h1
    · rw [habs1] at h1
      exact absurd h1 (by simp)
  · have hf : isAbsB t1 = false := eq_false_of_ne_true habs1
    rw [hf]
    simp only [Bool.not_false, if_pos]
    exact filepathAbs_cleanAbs (goDir file) t1 hgdabs hf

/-- The intermediate target after the `filepath.Dir(target) == "."`
adjustment is either clean absolute or still relative. -/
theorem symlink_t1_cases (file target0 : String) (hfile : isAbsB file = true)
    (htok : isAbsB target0 = true → cleanAbsB target0 = true) :
    cleanAbsB (if goDir target0 = "." then goJoin (goDir file) target0
      else target0) = true ∨
    isAbsB (if goDir target0 = "." then goJoin (goDir file) target0
      else target0) = false := by
  have hgdabs : isAbsB (goDir file) = true :=
    cleanAbs_isAbs _ (goDir_rooted_cleanAbs file hfile)
  by_cases hdot : goDir target0 = "."
  · rw [if_pos hdot]
    exact Or.inl (goJoin_rooted (goDir file) target0 hgdabs)
  · rw [if_neg hdot]
    by_cases habs : isAbsB target0 = true
    · exact Or.inl (htok habs)
    · exact Or.inr (eq_false_of_ne_true habs)

/-- Invariant preservation for `Archive.AddFile`: for a filesystem whose
absolute symlink targets are clean, adding an absolute source path at a
clean absolute destination preserves the archive invariant, whatever the
call returns. -/
theorem AddFile_inv (fs : ArcFS)
    (hfs : ∀ p n, arcGet fs p = some n → n.isSymlink = true →
      isAbsB n.linkTarget = true → cleanAbsB n.linkTarget = true) :
    ∀ (fuel : Nat) (a : Archv) (file dest : String)
      (out : Archv × Option String),
      AddFile fs fuel a file dest = some out →
      ArchInv a → isAbsB file = true → cleanAbsB dest = true →
      ArchInv out.1 := by
  intro fuel
  induction fuel with
  | zero =>
    intro a file dest out heq
    exact absurd heq (by simp [AddFile])
  | succ fuel ih =>
    intro a file dest out heq hInv hfile hdest
    obtain ⟨hInv1, hanc1⟩ := addDir_goDir_spec a dest hInv hdest
    simp only [AddFile] at heq
    split at heq
    · -- already written: the call returns the addDir result unchanged
      obtain rfl := Option.some_inj.mp heq
      exact hInv1
    · split at heq
      · -- stat failure
        obtain rfl := Option.some_inj.mp heq
        exact hInv1
      · rename_i node harc
        split at heq
        · -- symlink entry followed by recursion into the target
          rename_i hsym
          refine ih _ _ _ _ heq ?_ ?_ ?_
          · refine inv_extend_nondir (addDir a (goDir dest)) _
              (Entry.symlink (trimSlash dest) node.linkTarget) hInv1 rfl rfl rfl ?_
            intro x hx
            exact hanc1 x hx
          · apply cleanAbs_isAbs
            exact symlink_target_clean file _ hfile
              (symlink_t1_cases file node.linkTarget hfile
                (fun habs => hfs file node harc hsym habs))
          · exact symlink_target_clean file _ hfile
              (symlink_t1_cases file node.linkTarget hfile
                (fun habs => hfs file node harc hsym habs))
        · -- regular file entry
          obtain rfl := Option.some_inj.mp heq
          refine inv_extend_nondir (addDir a (goDir dest)) _
            (Entry.file (trimSlash dest) node.perm node.content) hInv1 rfl rfl rfl ?_
          intro x hx
          exact hanc1 x hx

/-- `archive.New()`: the empty archive. -/
def newArchive : Archv := { Dirs := [], Files := [], stream := [] }

/-- Claim C7.  The archive entry stream satisfies the structural
invariant: starting from the fresh archive, and preserved by both
`addDir` (on a clean absolute directory path) and `AddFile` (for an
absolute source path and clean absolute destination, over a filesystem
whose absolute symlink targets are clean), every emitted file, symlink or
directory entry has all ancestor directories of its path emitted as
directory entries earlier in the stream, and each directory path is
emitted at most once; moreover re-adding an already-added directory is a
no-op — the second `addDir` returns the archive unchanged, with no error
(`addDir` has no failure outcome in the model: cpio writes to an
in-memory buffer). -/
theorem C7_stream_invariant :
    (archInvB newArchive = true) ∧
    (∀ (a : Archv) (d : String), archInvB a = true → cleanAbsB d = true →
      archInvB (addDir a d) = true ∧ addDir (addDir a d) d = addDir a d) ∧
    (∀ (fs : ArcFS) (fuel : Nat) (a : Archv) (file dest : String)
        (out : Archv × Option String),
      (∀ p n, arcGet fs p = some n → n.isSymlink = true →
        isAbsB n.linkTarget = true → cleanAbsB n.linkTarget = true) →
      archInvB a = true → isAbsB file = true → cleanAbsB dest = true →
      AddFile fs fuel a file dest = some out → archInvB out.1 = true) := by
  refine ⟨by decide, ?_, ?_⟩
  · intro a d hA hd
    have hInv := (archInvB_iff a).mp hA
    exact ⟨(archInvB_iff _).mpr (addDir_inv a d hInv hd),
           addDir_idem a d hInv hd⟩
  · intro fs fuel a file dest out hfs hA hfile hdest heq
    exact (archInvB_iff _).mpr
      (AddFile_inv fs hfs fuel a file dest out heq ((archInvB_iff a).mp hA)
        hfile hdest)

/-- Filesystem for the C7 witness: one regular file. -/
def c7fs : ArcFS := [("/bin/sh", { perm := 493, content := "#!" })]

/-- The result of the C7 witness run of `AddFile`. -/
def c7out : Archv × Option String :=
  (AddFile c7fs 2 newArchive "/bin/sh" "/bin/sh").getD (newArchive, none)

/-- Claim C7 (witness): `C7_stream_invariant` applied at a concrete
archive, directory and `AddFile` run. -/
theorem C7_witness :
    archInvB (addDir newArchive "/usr/lib") = true ∧
    addDir (addDir newArchive "/usr/lib") "/usr/lib"
      = addDir newArchive "/usr/lib" ∧
    archInvB c7out.1 = true := by
  refine ⟨(C7_stream_invariant.2.1 newArchive "/usr/lib" (by decide) (by decide)).1,
    (C7_stream_invariant.2.1 newArchive "/usr/lib" (by decide) (by decide)).2,
    C7_stream_invariant.2.2 c7fs 2 newArchive "/bin/sh" "/bin/sh" c7out
      ?_ (by decide) (by decide) (by decide) (by decide)⟩
  intro p n h hsym _
  simp only [c7fs, arcGet] at h
  by_cases hp : "/bin/sh" = p
  · rw [if_pos hp] at h
    have hn : n = { perm := 493, content := "#!" } := (Option.some_inj.mp h).symm
    rw [hn] at hsym
    exact absurd hsym (by decide)
  · rw [if_neg hp] at h
    exact absurd h (by simp)

/-- Claim C9.  `AddFile` deduplicates on the source path alone: once a
source path is marked as written, a second `AddFile` call with the same
source and any destination emits no file or symlink entry and succeeds —
the whole call equals the initial ancestor-directory creation
(`addDir` of the destination's parent), which leaves the file marks
untouched and appends only directory entries to the stream. -/
theorem C9_addfile_dedups_on_source (fs : ArcFS) (fuel : Nat) (a : Archv)
    (file dest : String) (h : getB a.Files file = true) :
    AddFile fs (fuel + 1) a file dest
      = some (addDir a (goDir dest), none) ∧
    (addDir a (goDir dest)).Files = a.Files ∧
    ∃ tail, (addDir a (goDir dest)).stream = a.stream ++ tail ∧
      ∀ e ∈ tail, isDirE e = true := by
  refine ⟨?_, addDir_files a (goDir dest), addDir_stream a (goDir dest)⟩
  have hc : getB (addDir a (goDir dest)).Files file = true := by
    rw [addDir_files]
    exact h
  simp only [AddFile]
  rw [if_pos hc]

/-- Archive state for the C9 witness: `/bin/sh` has already been written
(one file entry, its parent directory emitted). -/
def c9Archive : Archv :=
  { Dirs := [("bin", true)], Files := [("/bin/sh", true)],
    stream := [Entry.dir "bin", Entry.file "bin/sh" 493 "#!"] }

/-- Claim C9 (witness): `C9_addfile_dedups_on_source` at a concrete
archive and a second destination. -/
theorem C9_witness :
    AddFile [] 3 c9Archive "/bin/sh" "/usr/bin/sh"
      = some (addDir c9Archive (goDir "/usr/bin/sh"), none) ∧
    (addDir c9Archive (goDir "/usr/bin/sh")).Files = c9Archive.Files ∧
    ∃ tail, (addDir c9Archive (goDir "/usr/bin/sh")).stream
        = c9Archive.stream ++ tail ∧
      ∀ e ∈ tail, isDirE e = true :=
  C9_addfile_dedups_on_source [] 2 c9Archive "/bin/sh" "/usr/bin/sh" (by decide)

end Mkinitfs

